import Mathlib

/-!
# Request construction and mutation validation (neuralnetworks 1.1 VTS)

A shallow embedding of `neuralnetworks/1.1/vts/functional/ValidateRequest.cpp`:
`createRequests` packs example datasets into requests over two memory pools,
`validateRequests` submits every "one descriptor removed" variant of a request
to the prepared model and checks that it is rejected on both channels.

Machine integers are natural numbers with explicit wrap-around: `uint32_t`
values are reduced modulo `2^32`, the `size_t` offset accumulator modulo `2^64`.
External services (shared-memory allocation and mapping, the prepared model)
are parameters, written in state-passing style so that successive calls may
answer differently.
-/

namespace ValidateRequest

/-! ## Data model -/

/-- Number of values of a `uint32_t`. -/
def UINT32_MOD : Nat := 2 ^ 32

/-- Number of values of a `size_t` (LP64). -/
def SIZE_MOD : Nat := 2 ^ 64

/-- Modelled from the spec: the status enumeration of `V1_0::ErrorStatus`
(declared in `1.0/types.hal`). Only
`INVALID_ARGUMENT` is singled out by the code. -/
inductive ErrorStatus where
  | NONE
  | DEVICE_UNAVAILABLE
  | GENERAL_FAILURE
  | OUTPUT_INSUFFICIENT_SIZE
  | INVALID_ARGUMENT
  deriving DecidableEq, Repr

/-- Modelled from the spec: `V1_0::DataLocation`, the location
"pool identifier, byte offset, byte length" of an operand; all three fields
are `uint32_t`. -/
structure DataLocation where
  poolIndex : Nat
  offset : Nat
  length : Nat
  deriving DecidableEq, Repr

/-- Modelled from the spec: `V1_0::RequestArgument`, the argument descriptor:
a "has no value" flag, a location and a dimension-override list. -/
structure RequestArgument where
  hasNoValue : Bool
  location : DataLocation
  dimensions : List Nat
  deriving DecidableEq, Repr

/-- Value-initialised descriptor, as produced by `std::vector::resize`. -/
instance : Inhabited RequestArgument := ⟨⟨false, ⟨0, 0, 0⟩, []⟩⟩

/-- Modelled from the spec: `hidl_memory`, a contiguous byte-addressable
shared-memory region. The region is its list of bytes; `size()` is the number
of bytes. -/
structure hidl_memory where
  data : List Nat
  deriving DecidableEq, Repr

/-- Byte size of a pool (`hidl_memory::size()`). -/
def hidl_memory.size (m : hidl_memory) : Nat := m.data.length

/-- Modelled from the spec: `V1_0::Request`: input descriptors, output
descriptors and the pools they refer to by pool index. -/
structure Request where
  inputs : List RequestArgument
  outputs : List RequestArgument
  pools : List hidl_memory
  deriving DecidableEq, Repr

/-- Modelled from the spec: one entry of a `test_helper::MixedTyped` operand
collection as `for_all` presents it to its callback: the operand index and the
raw bytes of the buffer (the byte count `s` is the length of `bytes`). -/
structure Operand where
  index : Nat
  bytes : List Nat
  deriving DecidableEq, Repr

/-- Modelled from the spec: `test_helper::MixedTyped`, the operands of one
direction listed in the order in which `for_all` visits them. Operands of
different element types may carry the same index. -/
abbrev MixedTyped := List Operand

/-- Modelled from the spec: `test_helper::MixedTypedExample`, an example
dataset: the pair `operands.first` (inputs), `operands.second` (outputs). -/
structure MixedTypedExample where
  inputs : MixedTyped
  outputs : MixedTyped
  deriving DecidableEq, Repr

/-- Modelled from the spec: `test_helper::for_all`, which calls the callback on
every operand in turn; the variables the callback captures by reference are
the accumulator. -/
def for_all {β : Type} (operands : MixedTyped) (init : β) (f : β → Operand → β) : β :=
  operands.foldl f init

/-- Modelled from the spec: the mapped view `IMemory` returned by `mapMemory`;
only whether `getPointer()` is non-null matters to the code. -/
structure IMemory where
  pointerNonNull : Bool
  deriving DecidableEq, Repr

/-- Shared-memory collaborators (`nn::allocateSharedMemory`, `mapMemory`),
taken as parameters. Each call may depend on and change a service state. -/
structure MemoryService (σ : Type) where
  allocateSharedMemory : σ → Nat → hidl_memory × σ
  mapMemory : σ → hidl_memory → Option IMemory × σ

/-! ## createRequests -/

/-- Pool index of the input pool (`const uint32_t INPUT = 0`). -/
def INPUT : Nat := 0

/-- Pool index of the output pool (`const uint32_t OUTPUT = 1`). -/
def OUTPUT : Nat := 1

/-- Resize of `std::vector<RequestArgument>`: truncate, or pad with
value-initialised descriptors. -/
def resize (v : List RequestArgument) (n : Nat) : List RequestArgument :=
  v.take n ++ List.replicate (n - v.length) default

/-- Body of the first `for_all` over the inputs (lines 105-118): the
accumulator is the pair `(inputs_info, inputSize)`. -/
def initInput (acc : List RequestArgument × Nat) (op : Operand) : List RequestArgument × Nat :=
  let index := op.index
  let s := op.bytes.length
  let inputs_info := if acc.1.length ≤ index then resize acc.1 (index + 1) else acc.1
  let arg : RequestArgument :=
    { hasNoValue := false,
      location := { poolIndex := INPUT, offset := 0, length := s % UINT32_MOD },
      dimensions := [] }
  let arg_empty : RequestArgument :=
    { hasNoValue := true, location := { poolIndex := 0, offset := 0, length := 0 }, dimensions := [] }
  (inputs_info.set index (if s ≠ 0 then arg else arg_empty), (acc.2 + s) % UINT32_MOD)

/-- Offset loop over the input descriptors (lines 120-126), started with the
running `size_t offset`. -/
def inputOffsets : Nat → List RequestArgument → List RequestArgument
  | _, [] => []
  | offset, i :: rest =>
    (if i.hasNoValue then i
      else { i with location := { i.location with offset := offset % UINT32_MOD } })
      :: inputOffsets ((offset + i.location.length) % SIZE_MOD) rest

/-- Body of the `for_all` over the outputs (lines 129-139): the accumulator is
the pair `(outputs_info, outputSize)`. -/
def initOutput (acc : List RequestArgument × Nat) (op : Operand) : List RequestArgument × Nat :=
  let index := op.index
  let s := op.bytes.length
  let outputs_info := if acc.1.length ≤ index then resize acc.1 (index + 1) else acc.1
  let arg : RequestArgument :=
    { hasNoValue := false,
      location := { poolIndex := OUTPUT, offset := 0, length := s % UINT32_MOD },
      dimensions := [] }
  (outputs_info.set index arg, (acc.2 + s) % UINT32_MOD)

/-- Offset loop over the output descriptors (lines 141-147). -/
def outputOffsets : Nat → List RequestArgument → List RequestArgument
  | _, [] => []
  | offset, i :: rest =>
    { i with location := { i.location with offset := offset % UINT32_MOD } }
      :: outputOffsets ((offset + i.location.length) % SIZE_MOD) rest

/-- Copy `std::copy(begin, end, dest)` into a mapped region: byte `j` of the
source goes to position `dest + j`. The result is `none` when the destination
range is not inside the region: the write is out of bounds and the program
has no defined behaviour. -/
def std_copy (src : List Nat) (dest : Nat) (mem : List Nat) : Option (List Nat) :=
  if dest + src.length ≤ mem.length then
    some (mem.take dest ++ src ++ mem.drop (dest + src.length))
  else none

/-- Body of the `for_all` that initialises the input pool (lines 166-171): the
accumulator is the mapped region behind `inputPtr`, or `none` once a copy has
left the region. -/
def copyInput (inputs_info : List RequestArgument) (mem : Option (List Nat)) (op : Operand) :
    Option (List Nat) :=
  mem.bind (std_copy op.bytes (inputs_info.getD op.index default).location.offset)

/-- Descriptor list and `inputSize` after lines 105-126. -/
def inputsInfo (inputs : MixedTyped) : List RequestArgument × Nat :=
  let acc := for_all inputs ([], 0) initInput
  (inputOffsets 0 acc.1, acc.2)

/-- Descriptor list and `outputSize` after lines 129-147. -/
def outputsInfo (outputs : MixedTyped) : List RequestArgument × Nat :=
  let acc := for_all outputs ([], 0) initOutput
  (outputOffsets 0 acc.1, acc.2)

/-- Outcome of one iteration of the loop of `createRequests`. -/
inductive BuildResult where
  /-- The code executes `return {}`. -/
  | returnedEmpty
  /-- The code reaches `requests.push_back` with this request. -/
  | pushed (request : Request)
  /-- A copy into the input pool left the mapped region. -/
  | outOfBounds
  deriving DecidableEq, Repr

/-- One iteration of the loop of `createRequests` (lines 97-174). The handle
`pools[INPUT]` and the region mapped from it denote the same shared memory, so
the pool pushed with the request carries the contents written by the copies;
`update()` and `commit()` only bracket the write. -/
def buildRequest {σ : Type} (svc : MemoryService σ) (st : σ) (example_ : MixedTypedExample) :
    BuildResult × σ :=
  let inputs := example_.inputs
  let outputs := example_.outputs
  let (inputs_info, inputSize) := inputsInfo inputs
  let (outputs_info, outputSize) := outputsInfo outputs
  let (poolIn, st1) := svc.allocateSharedMemory st inputSize
  let (poolOut, st2) := svc.allocateSharedMemory st1 outputSize
  if poolIn.size = 0 ∨ poolOut.size = 0 then (BuildResult.returnedEmpty, st2)
  else
    match svc.mapMemory st2 poolIn with
    | (none, st3) => (BuildResult.returnedEmpty, st3)
    | (some inputMemory, st3) =>
      if inputMemory.pointerNonNull = false then (BuildResult.returnedEmpty, st3)
      else
        match for_all inputs (some poolIn.data) (copyInput inputs_info) with
        | none => (BuildResult.outOfBounds, st3)
        | some mem =>
          (BuildResult.pushed
            { inputs := inputs_info, outputs := outputs_info, pools := [⟨mem⟩, poolOut] }, st3)

/-- The loop of `createRequests` (lines 96-177) with the vector `requests`
built so far: a failed iteration returns the empty vector. The result is
`none` when a copy went out of bounds. -/
def createRequestsLoop {σ : Type} (svc : MemoryService σ) :
    σ → List MixedTypedExample → List Request → Option (List Request)
  | _, [], requests => some requests
  | st, example_ :: rest, requests =>
    match buildRequest svc st example_ with
    | (BuildResult.returnedEmpty, _) => some []
    | (BuildResult.outOfBounds, _) => none
    | (BuildResult.pushed request, st1) => createRequestsLoop svc st1 rest (requests ++ [request])

/-- Embedding of `createRequests` (lines 90-178): `some requests` is the
returned vector, `none` stands for an out-of-bounds copy. -/
def createRequests {σ : Type} (svc : MemoryService σ) (st : σ)
    (examples : List MixedTypedExample) : Option (List Request) :=
  createRequestsLoop svc st examples []

/-! ## validateRequests -/

/-- Modelled from the spec: answer of the backend to one `execute` call.
`launch` is the `Return<ErrorStatus>` of the call itself (`none` when the call
did not complete, otherwise the immediate status); `callbackStatus` is the
final status the completion callback holds once `wait()` has returned. A
backend that never signals the callback, so that `wait()` blocks for ever, is
not covered. -/
structure ExecuteResult where
  launch : Option ErrorStatus
  callbackStatus : ErrorStatus
  deriving DecidableEq, Repr

/-- The prepared model under test (`V1_1::IPreparedModel`), taken as a
parameter: any state machine answering `execute` calls. -/
structure IPreparedModel (σ : Type) where
  execute : σ → Request → ExecuteResult × σ

/-- What one run of `validate` leaves behind: the scoped trace label, the
request passed to `execute`, whether the callback was waited on and read, and
whether an assertion failed. -/
structure CheckRecord where
  label : String
  submitted : Request
  waited : Bool
  failed : Bool
  deriving DecidableEq, Repr

/-- Modelled from the spec: `hidl_vec_removeAt` (declared in the test
utilities) removes the element at the given index and keeps the others in
order. -/
def hidl_vec_removeAt {α : Type} (vec : List α) (index : Nat) : List α :=
  vec.eraseIdx index

/-- Embedding of `validate` (lines 52-66). The request is a by-value copy; a
failed `ASSERT_*` ends this call only. The callback returned by
`new ExecutionCallback()` is never null, so the assertion of line 58 always
holds and is left out. -/
def validate {σ : Type} (preparedModel : IPreparedModel σ) (st : σ) (message : String)
    (request : Request) (mutation : Request → Request) : CheckRecord × σ :=
  let request := mutation request
  let label := message ++ " [execute]"
  let (result, st1) := preparedModel.execute st request
  match result.launch with
  | none => ({ label := label, submitted := request, waited := false, failed := true }, st1)
  | some executeLaunchStatus =>
    if executeLaunchStatus ≠ ErrorStatus.INVALID_ARGUMENT then
      ({ label := label, submitted := request, waited := false, failed := true }, st1)
    else
      let executionReturnStatus := result.callbackStatus
      ({ label := label, submitted := request, waited := true,
         failed := decide (executionReturnStatus ≠ ErrorStatus.INVALID_ARGUMENT) }, st1)

/-- The mutation of `removeInputTest` (line 74):
`hidl_vec_removeAt(&request->inputs, input)`. -/
def removeInput (input : Nat) (request : Request) : Request :=
  { request with inputs := hidl_vec_removeAt request.inputs input }

/-- The mutation of `removeOutputTest` (line 84):
`hidl_vec_removeAt(&request->outputs, output)`. -/
def removeOutput (output : Nat) (request : Request) : Request :=
  { request with outputs := hidl_vec_removeAt request.outputs output }

/-- Loop of `removeInputTest` (lines 71-75) from index `input` on, with `fuel`
iterations left; `removeInputTest` runs it with `fuel = request.inputs.size()`. -/
def removeInputLoop {σ : Type} (preparedModel : IPreparedModel σ) (request : Request) :
    Nat → Nat → σ → List CheckRecord × σ
  | 0, _, st => ([], st)
  | fuel + 1, input, st =>
    let message := "removeInput: removed input " ++ toString input
    let (record, st1) := validate preparedModel st message request (removeInput input)
    let (records, st2) := removeInputLoop preparedModel request fuel (input + 1) st1
    (record :: records, st2)

/-- Embedding of `removeInputTest` (lines 70-76). -/
def removeInputTest {σ : Type} (preparedModel : IPreparedModel σ) (st : σ) (request : Request) :
    List CheckRecord × σ :=
  removeInputLoop preparedModel request request.inputs.length 0 st

/-- Loop of `removeOutputTest` (lines 81-85) from index `output` on. -/
def removeOutputLoop {σ : Type} (preparedModel : IPreparedModel σ) (request : Request) :
    Nat → Nat → σ → List CheckRecord × σ
  | 0, _, st => ([], st)
  | fuel + 1, output, st =>
    let message := "removeOutput: removed Output " ++ toString output
    let (record, st1) := validate preparedModel st message request (removeOutput output)
    let (records, st2) := removeOutputLoop preparedModel request fuel (output + 1) st1
    (record :: records, st2)

/-- Embedding of `removeOutputTest` (lines 80-86). -/
def removeOutputTest {σ : Type} (preparedModel : IPreparedModel σ) (st : σ) (request : Request) :
    List CheckRecord × σ :=
  removeOutputLoop preparedModel request request.outputs.length 0 st

/-- Embedding of `ValidationTest::validateRequests` (lines 180-187): the
records of all checks, in the order in which they ran. -/
def validateRequests {σ : Type} (preparedModel : IPreparedModel σ) :
    σ → List Request → List CheckRecord × σ
  | st, [] => ([], st)
  | st, request :: rest =>
    let (inputRecords, st1) := removeInputTest preparedModel st request
    let (outputRecords, st2) := removeOutputTest preparedModel st1 request
    let (restRecords, st3) := validateRequests preparedModel st2 rest
    (inputRecords ++ outputRecords ++ restRecords, st3)

/-! ## Specification vocabulary and sample data -/

/-- Total byte count of an operand collection, as an unbounded sum. -/
def totalBytes (operands : MixedTyped) : Nat :=
  (operands.map (fun op => op.bytes.length)).sum

/-- Sum of the `location.length` fields of a descriptor list. -/
def sumLengths (l : List RequestArgument) : Nat :=
  (l.map (fun d => d.location.length)).sum

/-- Sum of the `location.length` fields of the descriptors that are not
`hasNoValue`. -/
def sumValueLengths (l : List RequestArgument) : Nat :=
  ((l.filter (fun d => !d.hasNoValue)).map (fun d => d.location.length)).sum

/-- Every `hasNoValue` descriptor of the list has length zero. -/
def NoValueZero (l : List RequestArgument) : Prop :=
  ∀ d ∈ l, d.hasNoValue = true → d.location.length = 0

/-- The input pool as `buildRequest` receives it from the allocator. -/
def allocatedInputPool {σ : Type} (svc : MemoryService σ) (st : σ) (e : MixedTypedExample) :
    hidl_memory :=
  (svc.allocateSharedMemory st (inputsInfo e.inputs).2).1

/-- The output pool as `buildRequest` receives it from the allocator. -/
def allocatedOutputPool {σ : Type} (svc : MemoryService σ) (st : σ) (e : MixedTypedExample) :
    hidl_memory :=
  (svc.allocateSharedMemory (svc.allocateSharedMemory st (inputsInfo e.inputs).2).2
    (outputsInfo e.outputs).2).1

/-- A memory service without state: every allocation returns a zero-filled
pool of exactly the requested size and every mapping succeeds. -/
def exactMemory : MemoryService Unit where
  allocateSharedMemory := fun st n => (⟨List.replicate n 0⟩, st)
  mapMemory := fun st _ => (some ⟨true⟩, st)

/-- A memory service whose state counts the allocations made so far: the
third allocation fails (it returns an empty pool), every other one returns a
zero-filled pool of the requested size; every mapping succeeds. -/
def flakyMemory : MemoryService Nat where
  allocateSharedMemory := fun st n => (if st = 2 then ⟨[]⟩ else ⟨List.replicate n 0⟩, st + 1)
  mapMemory := fun st _ => (some ⟨true⟩, st)

/-- Sample dataset: inputs of 3 bytes (index 0) and 2 bytes (index 2), index 1
left out; one output of 2 bytes at index 1. -/
def sparseExample : MixedTypedExample :=
  { inputs := [⟨2, [7, 8]⟩, ⟨0, [1, 2, 3]⟩], outputs := [⟨1, [0, 0]⟩] }

/-- The request `createRequests` builds for `sparseExample` with `exactMemory`. -/
def sparseRequest : Request :=
  { inputs := [⟨false, ⟨0, 0, 3⟩, []⟩, ⟨false, ⟨0, 3, 0⟩, []⟩, ⟨false, ⟨0, 3, 2⟩, []⟩],
    outputs := [⟨false, ⟨0, 0, 0⟩, []⟩, ⟨false, ⟨1, 0, 2⟩, []⟩],
    pools := [⟨[1, 2, 3, 7, 8]⟩, ⟨[0, 0]⟩] }

/-- Outcomes of the loop body on every dataset in turn, had the loop gone on
after a failed dataset (the service state is threaded through). -/
def buildEach {σ : Type} (svc : MemoryService σ) : σ → List MixedTypedExample → List BuildResult
  | _, [] => []
  | st, e :: rest => (buildRequest svc st e).1 :: buildEach svc (buildRequest svc st e).2 rest

/-- The requests of the outcomes that are `pushed`, in order. -/
def successfulRequests : List BuildResult → List Request
  | [] => []
  | BuildResult.pushed r :: rest => r :: successfulRequests rest
  | _ :: rest => successfulRequests rest

/-- The first outcome that is not `pushed`, if there is one. -/
def firstFailure : List BuildResult → Option BuildResult
  | [] => none
  | BuildResult.pushed _ :: rest => firstFailure rest
  | b :: _ => some b

/-- Sample dataset that builds: one input of 1 byte, one output of 2 bytes. -/
def smallExample : MixedTypedExample :=
  { inputs := [⟨0, [9]⟩], outputs := [⟨0, [0, 0]⟩] }

/-- The request built for `smallExample` with `exactMemory`. -/
def smallRequest : Request :=
  { inputs := [⟨false, ⟨0, 0, 1⟩, []⟩],
    outputs := [⟨false, ⟨1, 0, 2⟩, []⟩],
    pools := [⟨[9]⟩, ⟨[0, 0]⟩] }

/-- Sample dataset without inputs and with one output of 2 bytes: its input
pool is requested with size 0. -/
def noInputExample : MixedTypedExample :=
  { inputs := [], outputs := [⟨0, [0, 0]⟩] }

/-- The variants of a request in the order of the enumeration: each input
removed in ascending index order, then each output removed in ascending index
order. -/
def variants (r : Request) : List Request :=
  (List.range r.inputs.length).map (fun k => removeInput k r)
    ++ (List.range r.outputs.length).map (fun k => removeOutput k r)

/-- A prepared model that answers every call with `INVALID_ARGUMENT` on both
channels; its state counts the calls. -/
def rejectingModel : IPreparedModel Nat where
  execute := fun st _ => (⟨some ErrorStatus.INVALID_ARGUMENT, ErrorStatus.INVALID_ARGUMENT⟩, st + 1)

/-- The descriptor that `initInput` stores for an input operand of `s` bytes:
`arg` when `s` is non-zero, `arg_empty` otherwise. -/
def inputDescriptor (s : Nat) : RequestArgument :=
  if s ≠ 0 then
    { hasNoValue := false,
      location := { poolIndex := INPUT, offset := 0, length := s % UINT32_MOD },
      dimensions := [] }
  else
    { hasNoValue := true, location := { poolIndex := 0, offset := 0, length := 0 }, dimensions := [] }

/-- The descriptor that `initOutput` stores for an output operand of `s`
bytes. -/
def outputDescriptor (s : Nat) : RequestArgument :=
  { hasNoValue := false,
    location := { poolIndex := OUTPUT, offset := 0, length := s % UINT32_MOD },
    dimensions := [] }

/-- What the input offset loop turns a descriptor into when the running
offset is `offset`. -/
def withInputOffset (offset : Nat) (d : RequestArgument) : RequestArgument :=
  if d.hasNoValue then d
  else { d with location := { d.location with offset := offset % UINT32_MOD } }

/-- What the output offset loop turns a descriptor into when the running
offset is `offset`. -/
def withOutputOffset (offset : Nat) (d : RequestArgument) : RequestArgument :=
  { d with location := { d.location with offset := offset % UINT32_MOD } }

/-- A buffer of `2^32` zero bytes. -/
def hugeBuffer : List Nat := List.replicate UINT32_MOD 0

/-- Sample dataset with an empty input: inputs of 4 bytes (index 0) and 0
bytes (index 1), one output of 8 bytes. -/
def emptyInputExample : MixedTypedExample :=
  { inputs := [⟨0, [1, 2, 3, 4]⟩, ⟨1, []⟩], outputs := [⟨0, [0, 0, 0, 0, 0, 0, 0, 0]⟩] }

/-- The request built for `emptyInputExample` with `exactMemory`. -/
def emptyInputRequest : Request :=
  { inputs := [⟨false, ⟨0, 0, 4⟩, []⟩, ⟨true, ⟨0, 0, 0⟩, []⟩],
    outputs := [⟨false, ⟨1, 0, 8⟩, []⟩],
    pools := [⟨[1, 2, 3, 4]⟩, ⟨[0, 0, 0, 0, 0, 0, 0, 0]⟩] }

/-- Sample dataset with two output operands carrying the same index 0 (as
operands of two element types may): 2 bytes, then 1 byte. -/
def duplicateOutputExample : MixedTypedExample :=
  { inputs := [⟨0, [9]⟩], outputs := [⟨0, [1, 2]⟩, ⟨0, [3]⟩] }

/-- The request built for `duplicateOutputExample` with `exactMemory`. -/
def duplicateOutputRequest : Request :=
  { inputs := [⟨false, ⟨0, 0, 1⟩, []⟩],
    outputs := [⟨false, ⟨1, 0, 1⟩, []⟩],
    pools := [⟨[9]⟩, ⟨[0, 0, 0]⟩] }

/-- Sample dataset whose output operands have the indices 0 (3 bytes) and 2
(1 byte), index 1 left out; one input of 1 byte. -/
def gapOutputExample : MixedTypedExample :=
  { inputs := [⟨0, [9]⟩], outputs := [⟨0, [1, 2, 3]⟩, ⟨2, [4]⟩] }

/-- The request built for `gapOutputExample` with `exactMemory`. -/
def gapOutputRequest : Request :=
  { inputs := [⟨false, ⟨0, 0, 1⟩, []⟩],
    outputs := [⟨false, ⟨1, 0, 3⟩, []⟩, ⟨false, ⟨0, 3, 0⟩, []⟩, ⟨false, ⟨1, 3, 1⟩, []⟩],
    pools := [⟨[9]⟩, ⟨[0, 0, 0, 0]⟩] }

/-- Sample dataset with an output operand of `2^32` bytes at index 0 and one
of 1 byte at index 1; one input of 1 byte. -/
def hugeOutputExample : MixedTypedExample :=
  { inputs := [⟨0, [9]⟩], outputs := [⟨0, hugeBuffer⟩, ⟨1, [0]⟩] }

/-- A prepared model that cannot be reached: no `execute` call completes. -/
def unreachableModel : IPreparedModel Nat where
  execute := fun st _ => (⟨none, ErrorStatus.NONE⟩, st + 1)

/-- A label contains a text when the characters of the text occur in it as a
contiguous block. -/
def containsText (label text : String) : Prop :=
  text.data <:+: label.data

instance (label text : String) : Decidable (containsText label text) :=
  inferInstanceAs (Decidable (text.data <:+: label.data))

/-- The mapping of the input pool as `buildRequest` receives it from
`mapMemory` (the code asks for it only when both pools have a non-zero
size). -/
def mappedInputPool {σ : Type} (svc : MemoryService σ) (st : σ) (e : MixedTypedExample) :
    Option IMemory :=
  (svc.mapMemory
    (svc.allocateSharedMemory (svc.allocateSharedMemory st (inputsInfo e.inputs).2).2
      (outputsInfo e.outputs).2).2 (allocatedInputPool svc st e)).1

/-! ## Properties -/

/-! ### Sums of descriptor lengths -/

theorem sumLengths_cons (d : RequestArgument) (l : List RequestArgument) :
    sumLengths (d :: l) = d.location.length + sumLengths l := by
  simp [sumLengths]

theorem sumLengths_append (l₁ l₂ : List RequestArgument) :
    sumLengths (l₁ ++ l₂) = sumLengths l₁ + sumLengths l₂ := by
  simp [sumLengths]

theorem sumLengths_replicate_default (n : Nat) :
    sumLengths (List.replicate n (default : RequestArgument)) = 0 := by
  induction n with
  | zero => rfl
  | succ n ih => rw [List.replicate_succ, sumLengths_cons, ih]; rfl

theorem sumLengths_set_le (l : List RequestArgument) (i : Nat) (d : RequestArgument) :
    sumLengths (l.set i d) ≤ sumLengths l + d.location.length := by
  induction l generalizing i with
  | nil => simp [sumLengths]
  | cons a l ih =>
    cases i with
    | zero => simp only [List.set_cons_zero, sumLengths_cons]; omega
    | succ i =>
      simp only [List.set_cons_succ, sumLengths_cons]
      have := ih i
      omega

theorem sumLengths_take_le (l : List RequestArgument) (k : Nat) :
    sumLengths (l.take k) ≤ sumLengths l := by
  induction l generalizing k with
  | nil => simp
  | cons a l ih =>
    cases k with
    | zero => simp [sumLengths]
    | succ k =>
      simp only [List.take_succ_cons, sumLengths_cons]
      have := ih k
      omega

theorem sumLengths_grow (l : List RequestArgument) (n : Nat) (h : l.length ≤ n) :
    sumLengths (resize l n) = sumLengths l := by
  unfold resize
  rw [List.take_of_length_le h, sumLengths_append, sumLengths_replicate_default]
  rfl

theorem mod_UINT32_le (s : Nat) : s % UINT32_MOD ≤ s := Nat.mod_le _ _

theorem initInput_sumLengths (acc : List RequestArgument × Nat) (op : Operand) :
    sumLengths (initInput acc op).1 ≤ sumLengths acc.1 + op.bytes.length := by
  unfold initInput
  simp only
  refine le_trans (sumLengths_set_le _ _ _) ?_
  have h1 : sumLengths (if acc.1.length ≤ op.index then resize acc.1 (op.index + 1) else acc.1)
      = sumLengths acc.1 := by
    split
    · exact sumLengths_grow _ _ (by omega)
    · rfl
  rw [h1]
  have h2 := mod_UINT32_le op.bytes.length
  split <;> simp only <;> omega

theorem initOutput_sumLengths (acc : List RequestArgument × Nat) (op : Operand) :
    sumLengths (initOutput acc op).1 ≤ sumLengths acc.1 + op.bytes.length := by
  unfold initOutput
  simp only
  refine le_trans (sumLengths_set_le _ _ _) ?_
  have h1 : sumLengths (if acc.1.length ≤ op.index then resize acc.1 (op.index + 1) else acc.1)
      = sumLengths acc.1 := by
    split
    · exact sumLengths_grow _ _ (by omega)
    · rfl
  rw [h1]
  have h2 := mod_UINT32_le op.bytes.length
  simp only
  omega

theorem totalBytes_cons (op : Operand) (ops : MixedTyped) :
    totalBytes (op :: ops) = op.bytes.length + totalBytes ops := by
  simp [totalBytes]

theorem foldl_initInput_sumLengths (ops : MixedTyped) (acc : List RequestArgument × Nat) :
    sumLengths (ops.foldl initInput acc).1 ≤ sumLengths acc.1 + totalBytes ops := by
  induction ops generalizing acc with
  | nil => simp [totalBytes]
  | cons op ops ih =>
    rw [List.foldl_cons, totalBytes_cons]
    have h1 := ih (initInput acc op)
    have h2 := initInput_sumLengths acc op
    omega

theorem foldl_initOutput_sumLengths (ops : MixedTyped) (acc : List RequestArgument × Nat) :
    sumLengths (ops.foldl initOutput acc).1 ≤ sumLengths acc.1 + totalBytes ops := by
  induction ops generalizing acc with
  | nil => simp [totalBytes]
  | cons op ops ih =>
    rw [List.foldl_cons, totalBytes_cons]
    have h1 := ih (initOutput acc op)
    have h2 := initOutput_sumLengths acc op
    omega

/-- The running size counters do not wrap when the total is below `2^32`. -/
theorem foldl_initInput_size (ops : MixedTyped) (acc : List RequestArgument × Nat)
    (hacc : acc.2 < UINT32_MOD) :
    (ops.foldl initInput acc).2 = (acc.2 + totalBytes ops) % UINT32_MOD := by
  induction ops generalizing acc with
  | nil => simp [totalBytes, Nat.mod_eq_of_lt hacc]
  | cons op ops ih =>
    rw [List.foldl_cons, totalBytes_cons, ih]
    · simp only [initInput]
      rw [Nat.mod_add_mod, Nat.add_assoc]
    · simp only [initInput]
      exact Nat.mod_lt _ (by decide)

theorem foldl_initOutput_size (ops : MixedTyped) (acc : List RequestArgument × Nat)
    (hacc : acc.2 < UINT32_MOD) :
    (ops.foldl initOutput acc).2 = (acc.2 + totalBytes ops) % UINT32_MOD := by
  induction ops generalizing acc with
  | nil => simp [totalBytes, Nat.mod_eq_of_lt hacc]
  | cons op ops ih =>
    rw [List.foldl_cons, totalBytes_cons, ih]
    · simp only [initOutput]
      rw [Nat.mod_add_mod, Nat.add_assoc]
    · simp only [initOutput]
      exact Nat.mod_lt _ (by decide)

theorem noValueZero_resize (l : List RequestArgument) (n : Nat) (h : NoValueZero l) :
    NoValueZero (resize l n) := by
  intro d hd hv
  unfold resize at hd
  rcases List.mem_append.1 hd with hd | hd
  · exact h d (List.mem_of_mem_take hd) hv
  · rw [List.eq_of_mem_replicate hd]; rfl

theorem noValueZero_set (l : List RequestArgument) (i : Nat) (d : RequestArgument)
    (h : NoValueZero l) (hd : d.hasNoValue = true → d.location.length = 0) :
    NoValueZero (l.set i d) := by
  intro x hx hv
  rcases List.mem_or_eq_of_mem_set hx with hx | hx
  · exact h x hx hv
  · subst hx; exact hd hv

theorem initInput_noValueZero (acc : List RequestArgument × Nat) (op : Operand)
    (h : NoValueZero acc.1) : NoValueZero (initInput acc op).1 := by
  unfold initInput
  simp only
  apply noValueZero_set
  · split
    · exact noValueZero_resize _ _ h
    · exact h
  · split <;> simp

theorem foldl_initInput_noValueZero (ops : MixedTyped) (acc : List RequestArgument × Nat)
    (h : NoValueZero acc.1) : NoValueZero (ops.foldl initInput acc).1 := by
  induction ops generalizing acc with
  | nil => exact h
  | cons op ops ih => exact ih _ (initInput_noValueZero acc op h)

/-! ### The offset loops -/

theorem inputOffsets_length (o : Nat) (l : List RequestArgument) :
    (inputOffsets o l).length = l.length := by
  induction l generalizing o with
  | nil => rfl
  | cons i l ih => simp [inputOffsets, ih]

theorem outputOffsets_length (o : Nat) (l : List RequestArgument) :
    (outputOffsets o l).length = l.length := by
  induction l generalizing o with
  | nil => rfl
  | cons i l ih => simp [outputOffsets, ih]

theorem sumValueLengths_cons (d : RequestArgument) (l : List RequestArgument) :
    sumValueLengths (d :: l)
      = (if d.hasNoValue then 0 else d.location.length) + sumValueLengths l := by
  unfold sumValueLengths
  cases h : d.hasNoValue <;> simp [List.filter_cons, h]

/-- Offsets written by the input loop: a descriptor with a value gets the
start offset plus the lengths of the valued descriptors before it. -/
theorem inputOffsets_offset (l : List RequestArgument) (o : Nat)
    (hz : NoValueZero l) (hsum : o + sumLengths l < UINT32_MOD)
    (k : Nat) (hk : k < (inputOffsets o l).length)
    (hv : ((inputOffsets o l)[k]).hasNoValue = false) :
    ((inputOffsets o l)[k]).location.offset
      = o + sumValueLengths ((inputOffsets o l).take k) := by
  induction l generalizing o k with
  | nil => simp [inputOffsets] at hk
  | cons i l ih =>
    rw [sumLengths_cons] at hsum
    have hlt : UINT32_MOD < SIZE_MOD := by decide
    cases k with
    | zero =>
      simp only [inputOffsets, List.getElem_cons_zero] at hv ⊢
      split at hv
      · rename_i h; rw [h] at hv; cases hv
      · rename_i h
        simp only [h, List.take_zero]
        rw [Nat.mod_eq_of_lt (by omega)]
        rfl
    | succ k =>
      have hz2 : NoValueZero l := fun d hd => hz d (List.mem_cons_of_mem _ hd)
      have hacc : (o + i.location.length) % SIZE_MOD = o + i.location.length :=
        Nat.mod_eq_of_lt (by omega)
      simp only [inputOffsets, List.getElem_cons_succ, List.take_succ_cons,
        sumValueLengths_cons, hacc] at hv ⊢
      simp only [inputOffsets, List.length_cons, hacc] at hk
      rw [ih (o + i.location.length) hz2 (by omega) k (by omega) hv]
      cases h : i.hasNoValue
      · simp; omega
      · have := hz i (List.mem_cons_self _ _) h
        simp [h]; omega

/-- Offsets written by the output loop: the start offset plus the lengths of
all descriptors before it. -/
theorem outputOffsets_offset (l : List RequestArgument) (o : Nat)
    (hsum : o + sumLengths l < UINT32_MOD)
    (k : Nat) (hk : k < (outputOffsets o l).length) :
    ((outputOffsets o l)[k]).location.offset
      = o + sumLengths ((outputOffsets o l).take k) := by
  induction l generalizing o k with
  | nil => simp [outputOffsets] at hk
  | cons i l ih =>
    rw [sumLengths_cons] at hsum
    have hlt : UINT32_MOD < SIZE_MOD := by decide
    cases k with
    | zero =>
      simp only [outputOffsets, List.getElem_cons_zero, List.take_zero]
      rw [Nat.mod_eq_of_lt (by omega)]
      rfl
    | succ k =>
      have hacc : (o + i.location.length) % SIZE_MOD = o + i.location.length :=
        Nat.mod_eq_of_lt (by omega)
      simp only [outputOffsets, List.getElem_cons_succ, List.take_succ_cons,
        sumLengths_cons, hacc]
      simp only [outputOffsets, List.length_cons, hacc] at hk
      rw [ih (o + i.location.length) (by omega) k (by omega)]
      omega

/-! ### Requests in the result -/

/-- Shape of a request pushed by one loop iteration. -/
theorem buildRequest_pushed {σ : Type} (svc : MemoryService σ) (st : σ) (e : MixedTypedExample)
    (r : Request) (h : (buildRequest svc st e).1 = BuildResult.pushed r) :
    r.inputs = (inputsInfo e.inputs).1 ∧ r.outputs = (outputsInfo e.outputs).1 ∧
    (∃ mem, for_all e.inputs (some (allocatedInputPool svc st e).data)
        (copyInput (inputsInfo e.inputs).1) = some mem ∧
      r.pools = [⟨mem⟩, allocatedOutputPool svc st e]) ∧
    (allocatedInputPool svc st e).size ≠ 0 ∧ (allocatedOutputPool svc st e).size ≠ 0 := by
  unfold buildRequest at h
  simp only at h
  split at h
  · cases h
  · rename_i hsz
    split at h
    · cases h
    · split at h
      · cases h
      · split at h
        · cases h
        · rename_i mem hmem
          simp only [BuildResult.pushed.injEq] at h
          subst h
          refine ⟨rfl, rfl, ⟨mem, hmem, rfl⟩, ?_, ?_⟩
          · exact fun h0 => hsz (Or.inl h0)
          · exact fun h0 => hsz (Or.inr h0)

/-- Every request in the result was pushed by some loop iteration. -/
theorem mem_createRequestsLoop {σ : Type} (svc : MemoryService σ)
    (examples : List MixedTypedExample) (st : σ) (requests result : List Request) (r : Request)
    (hres : createRequestsLoop svc st examples requests = some result) (h : r ∈ result) :
    r ∈ requests ∨ ∃ e ∈ examples, ∃ st1 : σ, (buildRequest svc st1 e).1 = BuildResult.pushed r := by
  induction examples generalizing st requests with
  | nil =>
    simp only [createRequestsLoop, Option.some.injEq] at hres
    subst hres
    exact Or.inl h
  | cons e rest ih =>
    unfold createRequestsLoop at hres
    split at hres
    · simp only [Option.some.injEq] at hres
      subst hres
      cases h
    · cases hres
    · rename_i request st1 hb
      rcases ih st1 _ hres with h1 | ⟨e1, he1, st2, h2⟩
      · rcases List.mem_append.1 h1 with h1 | h1
        · exact Or.inl h1
        · refine Or.inr ⟨e, List.mem_cons_self _ _, st, ?_⟩
          rw [hb]
          simp only [List.mem_singleton] at h1
          rw [h1]
      · exact Or.inr ⟨e1, List.mem_cons_of_mem _ he1, st2, h2⟩

theorem mem_createRequests {σ : Type} (svc : MemoryService σ) (st : σ)
    (examples : List MixedTypedExample) (result : List Request) (r : Request)
    (hres : createRequests svc st examples = some result) (h : r ∈ result) :
    ∃ e ∈ examples, ∃ st1 : σ, (buildRequest svc st1 e).1 = BuildResult.pushed r := by
  rcases mem_createRequestsLoop svc examples st [] result r hres h with h1 | h1
  · cases h1
  · exact h1

theorem inputsInfo_noValueZero (inputs : MixedTyped) :
    NoValueZero (for_all inputs ([], 0) initInput).1 :=
  foldl_initInput_noValueZero inputs ([], 0) (fun _ hd => by cases hd)

theorem inputsInfo_sumLengths (inputs : MixedTyped) :
    sumLengths (for_all inputs ([], 0) initInput).1 ≤ totalBytes inputs := by
  have := foldl_initInput_sumLengths inputs ([], 0)
  simpa [for_all, sumLengths] using this

theorem outputsInfo_sumLengths (outputs : MixedTyped) :
    sumLengths (for_all outputs ([], 0) initOutput).1 ≤ totalBytes outputs := by
  have := foldl_initOutput_sumLengths outputs ([], 0)
  simpa [for_all, sumLengths] using this

/-! ### Offset accumulation (C1) -/

/-- C1. Offset-accumulation law: in every request returned by `createRequests`
for datasets whose input bytes and output bytes each total less than `2^32`,
an input descriptor that is not `hasNoValue` has as offset the sum of the
lengths of the earlier input descriptors that are not `hasNoValue`, and every
output descriptor has as offset the sum of the lengths of the earlier output
descriptors. -/
theorem createRequests_offset_accumulation {σ : Type} (svc : MemoryService σ) (st : σ)
    (examples : List MixedTypedExample) (requests : List Request)
    (hsize : ∀ e ∈ examples, totalBytes e.inputs < 2 ^ 32 ∧ totalBytes e.outputs < 2 ^ 32)
    (hres : createRequests svc st examples = some requests)
    (r : Request) (hr : r ∈ requests) :
    (∀ (k : Nat) (hk : k < r.inputs.length), (r.inputs[k]).hasNoValue = false →
      (r.inputs[k]).location.offset
        = (((r.inputs.take k).filter (fun d => !d.hasNoValue)).map
            (fun d => d.location.length)).sum) ∧
    (∀ (k : Nat) (hk : k < r.outputs.length),
      (r.outputs[k]).location.offset
        = ((r.outputs.take k).map (fun d => d.location.length)).sum) := by
  obtain ⟨e, he, st1, hb⟩ := mem_createRequests svc st examples requests r hres hr
  obtain ⟨hin, hout, -, -, -⟩ := buildRequest_pushed svc st1 e r hb
  obtain ⟨hsi, hso⟩ := hsize e he
  constructor
  · intro k hk hv
    have key := inputOffsets_offset (for_all e.inputs ([], 0) initInput).1 0
      (inputsInfo_noValueZero e.inputs)
      (by have := inputsInfo_sumLengths e.inputs; simp only [UINT32_MOD]; omega)
    simp only [hin, inputsInfo] at hk hv ⊢
    have := key k hk hv
    simpa [sumValueLengths] using this
  · intro k hk
    have key := outputOffsets_offset (for_all e.outputs ([], 0) initOutput).1 0
      (by have := outputsInfo_sumLengths e.outputs; simp only [UINT32_MOD]; omega)
    simp only [hout, outputsInfo] at hk ⊢
    have := key k hk
    simpa [sumLengths] using this

/-- Witness for C1: the sample dataset with an index gap, built with the exact
allocator. -/
theorem createRequests_offset_accumulation_witness :
    (∀ e ∈ [sparseExample], totalBytes e.inputs < 2 ^ 32 ∧ totalBytes e.outputs < 2 ^ 32) ∧
    createRequests exactMemory () [sparseExample] = some [sparseRequest] ∧
    sparseRequest ∈ [sparseRequest] ∧
    ((∀ (k : Nat) (hk : k < sparseRequest.inputs.length),
        (sparseRequest.inputs[k]).hasNoValue = false →
        (sparseRequest.inputs[k]).location.offset
          = (((sparseRequest.inputs.take k).filter (fun d => !d.hasNoValue)).map
              (fun d => d.location.length)).sum) ∧
      (∀ (k : Nat) (hk : k < sparseRequest.outputs.length),
        (sparseRequest.outputs[k]).location.offset
          = ((sparseRequest.outputs.take k).map (fun d => d.location.length)).sum)) :=
  ⟨by decide, by decide, by decide,
    createRequests_offset_accumulation exactMemory () [sparseExample] [sparseRequest]
      (by decide) (by decide) sparseRequest (by decide)⟩

/-! ### Failure of a dataset (C2) -/

/-- The loop returns the requests of all datasets when none fails, and otherwise
what the first failing dataset dictates, whatever was built before it. -/
theorem createRequestsLoop_eq {σ : Type} (svc : MemoryService σ)
    (examples : List MixedTypedExample) (st : σ) (requests : List Request) :
    createRequestsLoop svc st examples requests =
      match firstFailure (buildEach svc st examples) with
      | none => some (requests ++ successfulRequests (buildEach svc st examples))
      | some BuildResult.outOfBounds => none
      | some _ => some [] := by
  induction examples generalizing st requests with
  | nil => simp [createRequestsLoop, buildEach, firstFailure, successfulRequests]
  | cons e rest ih =>
    unfold createRequestsLoop
    simp only [buildEach]
    rcases hb : buildRequest svc st e with ⟨b, st1⟩
    cases b with
    | returnedEmpty => simp [firstFailure]
    | outOfBounds => simp [firstFailure]
    | pushed r =>
      simp only [firstFailure, successfulRequests]
      rw [ih st1 (requests ++ [r])]
      simp only [List.append_assoc, List.singleton_append]

/-- C2 (as stated, refuted). With the exact allocator the dataset
`smallExample` builds and `noInputExample` fails; the requests of the datasets
that built are `[smallRequest]`, yet `createRequests` returns the empty list
whether the failing dataset comes last or first. Likewise, when the third
allocation fails, the first of two copies of `smallExample` builds, the second
does not, and the result is empty. -/
theorem createRequests_failure_not_local :
    successfulRequests (buildEach exactMemory () [smallExample, noInputExample]) = [smallRequest] ∧
    createRequests exactMemory () [smallExample, noInputExample] = some [] ∧
    successfulRequests (buildEach exactMemory () [noInputExample, smallExample]) = [smallRequest] ∧
    createRequests exactMemory () [noInputExample, smallExample] = some [] ∧
    buildEach flakyMemory 0 [smallExample, smallExample]
      = [BuildResult.pushed smallRequest, BuildResult.returnedEmpty] ∧
    createRequests flakyMemory 0 [smallExample, smallExample] = some [] := by
  decide

/-- C2 (amended). Allocation failure ends the whole call: `createRequests`
returns the requests of all datasets, in input order, when every dataset
builds; when the first dataset that does not build fails to allocate or map,
it returns the empty list, so the requests built before it are discarded and
no request is returned for the datasets after it. -/
theorem createRequests_failure_discards_all {σ : Type} (svc : MemoryService σ) (st : σ)
    (examples : List MixedTypedExample) :
    createRequests svc st examples =
      match firstFailure (buildEach svc st examples) with
      | none => some (successfulRequests (buildEach svc st examples))
      | some BuildResult.outOfBounds => none
      | some _ => some [] := by
  unfold createRequests
  rw [createRequestsLoop_eq]
  simp only [List.nil_append]

/-! ### Enumeration of the variants (C3, C4, C7, C8) -/

/-- The request handed to `execute` is the mutated copy. -/
theorem validate_submitted {σ : Type} (pm : IPreparedModel σ) (st : σ) (message : String)
    (request : Request) (mutation : Request → Request) :
    (validate pm st message request mutation).1.submitted = mutation request := by
  unfold validate
  simp only
  split
  · rfl
  · split <;> rfl

/-- The order of the requests submitted by the input loop. -/
theorem removeInputLoop_submitted {σ : Type} (pm : IPreparedModel σ) (r : Request)
    (fuel input : Nat) (st : σ) :
    (removeInputLoop pm r fuel input st).1.map (fun c => c.submitted)
      = (List.range' input fuel).map (fun k => removeInput k r) := by
  induction fuel generalizing input st with
  | zero => rfl
  | succ fuel ih =>
    simp only [removeInputLoop, List.range'_succ, List.map_cons, validate_submitted, ih]

/-- The order of the requests submitted by the output loop. -/
theorem removeOutputLoop_submitted {σ : Type} (pm : IPreparedModel σ) (r : Request)
    (fuel output : Nat) (st : σ) :
    (removeOutputLoop pm r fuel output st).1.map (fun c => c.submitted)
      = (List.range' output fuel).map (fun k => removeOutput k r) := by
  induction fuel generalizing output st with
  | zero => rfl
  | succ fuel ih =>
    simp only [removeOutputLoop, List.range'_succ, List.map_cons, validate_submitted, ih]

/-- The requests submitted for a list of requests are the variants of each
request in turn. -/
theorem validateRequests_submitted {σ : Type} (pm : IPreparedModel σ) (requests : List Request)
    (st : σ) :
    (validateRequests pm st requests).1.map (fun c => c.submitted)
      = requests.flatMap variants := by
  induction requests generalizing st with
  | nil => rfl
  | cons r rest ih =>
    simp only [validateRequests, List.map_append, List.flatMap_cons, ih, removeInputTest,
      removeOutputTest, removeInputLoop_submitted, removeOutputLoop_submitted, variants,
      List.range_eq_range', List.append_assoc]

theorem variants_getElem?_input (r : Request) (k : Nat) (hk : k < r.inputs.length) :
    (variants r)[k]? = some (removeInput k r) := by
  unfold variants
  rw [List.getElem?_append_left (by simpa using hk), List.getElem?_map,
    List.getElem?_range hk]
  rfl

theorem variants_getElem?_output (r : Request) (k : Nat) (hk : k < r.outputs.length) :
    (variants r)[r.inputs.length + k]? = some (removeOutput k r) := by
  unfold variants
  rw [List.getElem?_append_right (by simp), List.getElem?_map]
  simp only [List.length_map, List.length_range, Nat.add_sub_cancel_left]
  rw [List.getElem?_range hk]
  rfl

/-- C4. Dual-channel check: for every prepared model, request and mutation,
`validate` records no failure if and only if the `execute` call completed with
immediate status `INVALID_ARGUMENT` and the final status held by the callback
is `INVALID_ARGUMENT`; in particular a variant rejected on one channel only is
recorded as failed. -/
theorem validate_passes_iff {σ : Type} (pm : IPreparedModel σ) (st : σ) (message : String)
    (request : Request) (mutation : Request → Request) :
    (validate pm st message request mutation).1.failed = false ↔
      (pm.execute st (mutation request)).1.launch = some ErrorStatus.INVALID_ARGUMENT ∧
      (pm.execute st (mutation request)).1.callbackStatus = ErrorStatus.INVALID_ARGUMENT := by
  unfold validate
  simp only
  split
  · rename_i h
    simp [h]
  · rename_i s h
    split
    · rename_i hs
      simp [h, hs]
    · rename_i hs
      have hs2 : s = ErrorStatus.INVALID_ARGUMENT := by
        by_contra hne
        exact hs hne
      simp [h, hs2]

/-- C7. Each mutation removes exactly one descriptor and nothing else: for
every request `r`, the request submitted at position `k < I` is `r` with the
input at position `k` erased (the inputs before `k` followed by the inputs
after `k`), its outputs and pools being those of `r`; the request submitted at
position `I + k`, `k < O`, is `r` with the output at position `k` erased, its
inputs and pools being those of `r`. Every variant is computed from `r`
itself, whatever was submitted before. -/
theorem validateRequests_removes_one_descriptor {σ : Type} (pm : IPreparedModel σ) (st : σ)
    (r : Request) :
    (∀ k, k < r.inputs.length →
      ((validateRequests pm st [r]).1.map (fun c => c.submitted))[k]?
        = some { inputs := r.inputs.take k ++ r.inputs.drop (k + 1),
                 outputs := r.outputs, pools := r.pools }) ∧
    (∀ k, k < r.outputs.length →
      ((validateRequests pm st [r]).1.map (fun c => c.submitted))[r.inputs.length + k]?
        = some { inputs := r.inputs,
                 outputs := r.outputs.take k ++ r.outputs.drop (k + 1), pools := r.pools }) := by
  have h := validateRequests_submitted pm [r] st
  simp only [List.flatMap_cons, List.flatMap_nil, List.append_nil] at h
  constructor
  · intro k hk
    rw [h, variants_getElem?_input r k hk]
    simp [removeInput, hidl_vec_removeAt, List.eraseIdx_eq_take_drop_succ]
  · intro k hk
    rw [h, variants_getElem?_output r k hk]
    simp [removeOutput, hidl_vec_removeAt, List.eraseIdx_eq_take_drop_succ]

/-- Witness for C7 on the sample request: removing input 1 and removing
output 0. -/
theorem validateRequests_removes_one_descriptor_witness :
    ((validateRequests rejectingModel 0 [sparseRequest]).1.map (fun c => c.submitted))[1]?
      = some { inputs := [⟨false, ⟨0, 0, 3⟩, []⟩, ⟨false, ⟨0, 3, 2⟩, []⟩],
               outputs := sparseRequest.outputs, pools := sparseRequest.pools } ∧
    ((validateRequests rejectingModel 0 [sparseRequest]).1.map (fun c => c.submitted))[3 + 0]?
      = some { inputs := sparseRequest.inputs,
               outputs := [⟨false, ⟨1, 0, 2⟩, []⟩], pools := sparseRequest.pools } :=
  ⟨(validateRequests_removes_one_descriptor rejectingModel 0 sparseRequest).1 1 (by decide),
    (validateRequests_removes_one_descriptor rejectingModel 0 sparseRequest).2 0 (by decide)⟩

/-- A successful copy stays inside the region, keeps its size, and changes
exactly the destination range. -/
theorem std_copy_some (src : List Nat) (dest : Nat) (mem mem1 : List Nat)
    (h : std_copy src dest mem = some mem1) :
    dest + src.length ≤ mem.length ∧ mem1.length = mem.length ∧
    ∀ p, mem1[p]? = if dest ≤ p ∧ p < dest + src.length then src[p - dest]? else mem[p]? := by
  unfold std_copy at h
  split at h
  · rename_i hle
    simp only [Option.some.injEq] at h
    subst h
    refine ⟨hle, ?_, ?_⟩
    · simp only [List.length_append, List.length_take, List.length_drop]
      omega
    · intro p
      have hlen : (List.take dest mem).length = dest := by
        rw [List.length_take]; omega
      by_cases h1 : p < dest
      · rw [List.append_assoc, List.getElem?_append_left (by omega), List.getElem?_take]
        simp only [h1, if_true]
        rw [if_neg (by omega)]
      · by_cases h2 : p < dest + src.length
        · rw [List.getElem?_append_left (by simp only [List.length_append, hlen]; omega),
            List.getElem?_append_right (by omega), hlen]
          rw [if_pos ⟨by omega, h2⟩]
        · rw [List.getElem?_append_right (by simp only [List.length_append, hlen]; omega)]
          simp only [List.length_append, hlen, List.getElem?_drop]
          rw [if_neg (by omega)]
          congr 1
          omega
  · cases h

/-- Once a copy has left the region, the accumulator stays `none`. -/
theorem foldl_copyInput_none (info : List RequestArgument) (ops : MixedTyped) :
    ops.foldl (copyInput info) none = none := by
  induction ops with
  | nil => rfl
  | cons op ops ih => simpa [List.foldl_cons, copyInput] using ih

/-- Destination offset of the copy of an operand. -/
theorem copyInput_some (info : List RequestArgument) (mem : List Nat) (op : Operand) :
    copyInput info (some mem) op
      = std_copy op.bytes (info.getD op.index default).location.offset mem := rfl

/-- A successful initialisation of the input pool: every copy was inside the
region, the size is unchanged, and a position outside all destination ranges
keeps its byte. -/
theorem foldl_copyInput_some (info : List RequestArgument) (ops : MixedTyped)
    (mem mem1 : List Nat) (h : ops.foldl (copyInput info) (some mem) = some mem1) :
    mem1.length = mem.length ∧
    (∀ op ∈ ops, (info.getD op.index default).location.offset + op.bytes.length ≤ mem.length) ∧
    ∀ p, (∀ op ∈ ops, ¬ ((info.getD op.index default).location.offset ≤ p ∧
        p < (info.getD op.index default).location.offset + op.bytes.length)) →
      mem1[p]? = mem[p]? := by
  induction ops generalizing mem with
  | nil =>
    simp only [List.foldl_nil, Option.some.injEq] at h
    subst h
    exact ⟨rfl, fun _ hop => (by cases hop), fun _ _ => rfl⟩
  | cons op ops ih =>
    rw [List.foldl_cons, copyInput_some] at h
    cases hc : std_copy op.bytes (info.getD op.index default).location.offset mem with
    | none => rw [hc, foldl_copyInput_none] at h; cases h
    | some mem2 =>
      rw [hc] at h
      obtain ⟨hb, hl, hp⟩ := std_copy_some _ _ _ _ hc
      obtain ⟨hl2, hb2, hp2⟩ := ih mem2 h
      refine ⟨by omega, ?_, ?_⟩
      · intro op1 hop1
        rcases List.mem_cons.1 hop1 with h1 | h1
        · subst h1; exact hb
        · have := hb2 op1 h1; omega
      · intro p hout
        rw [hp2 p (fun op1 hop1 => hout op1 (List.mem_cons_of_mem _ hop1)), hp p]
        rw [if_neg (hout op (List.mem_cons_self _ _))]

/-- With pairwise disjoint destination ranges, the initialised pool holds the
bytes of every operand at its destination. -/
theorem foldl_copyInput_contents (info : List RequestArgument) (ops : MixedTyped)
    (mem mem1 : List Nat) (h : ops.foldl (copyInput info) (some mem) = some mem1)
    (hdisj : ops.Pairwise (fun a b => ∀ p,
      ¬ (((info.getD a.index default).location.offset ≤ p ∧
          p < (info.getD a.index default).location.offset + a.bytes.length) ∧
         ((info.getD b.index default).location.offset ≤ p ∧
          p < (info.getD b.index default).location.offset + b.bytes.length))))
    (op : Operand) (hop : op ∈ ops) (p : Nat)
    (hp : (info.getD op.index default).location.offset ≤ p ∧
      p < (info.getD op.index default).location.offset + op.bytes.length) :
    mem1[p]? = op.bytes[p - (info.getD op.index default).location.offset]? := by
  induction ops generalizing mem with
  | nil => cases hop
  | cons a ops ih =>
    rw [List.foldl_cons, copyInput_some] at h
    cases hc : std_copy a.bytes (info.getD a.index default).location.offset mem with
    | none => rw [hc, foldl_copyInput_none] at h; cases h
    | some mem2 =>
      rw [hc] at h
      obtain ⟨hd1, hd2⟩ := List.pairwise_cons.1 hdisj
      rcases List.mem_cons.1 hop with h1 | h1
      · subst h1
        obtain ⟨-, -, hp1⟩ := std_copy_some _ _ _ _ hc
        obtain ⟨-, -, hp2⟩ := foldl_copyInput_some info ops mem2 mem1 h
        rw [hp2 p (fun b hb hin => hd1 b hb p ⟨hp, hin⟩), hp1 p, if_pos hp]
      · exact ih mem2 h hd2 h1

theorem initInput_fst (acc : List RequestArgument × Nat) (op : Operand) :
    (initInput acc op).1
      = (if acc.1.length ≤ op.index then resize acc.1 (op.index + 1) else acc.1).set op.index
          (inputDescriptor op.bytes.length) := rfl

theorem initOutput_fst (acc : List RequestArgument × Nat) (op : Operand) :
    (initOutput acc op).1
      = (if acc.1.length ≤ op.index then resize acc.1 (op.index + 1) else acc.1).set op.index
          (outputDescriptor op.bytes.length) := rfl

theorem resize_length (l : List RequestArgument) (n : Nat) : (resize l n).length = n := by
  unfold resize
  simp only [List.length_append, List.length_take, List.length_replicate]
  omega

theorem getD_resize (l : List RequestArgument) (n i : Nat) (h : l.length ≤ n) :
    (resize l n).getD i default = l.getD i default := by
  unfold resize
  rw [List.take_of_length_le h, List.getD_eq_getElem?_getD, List.getD_eq_getElem?_getD]
  by_cases hi : i < l.length
  · rw [List.getElem?_append_left hi]
  · rw [List.getElem?_append_right (by omega), List.getElem?_replicate,
      List.getElem?_eq_none (by omega)]
    split <;> rfl

/-- The list `initInput` writes into: long enough to hold the operand index,
with the same entries as before. -/
theorem grown_length (l : List RequestArgument) (index : Nat) :
    index < (if l.length ≤ index then resize l (index + 1) else l).length ∧
    l.length ≤ (if l.length ≤ index then resize l (index + 1) else l).length := by
  split
  · rw [resize_length]; omega
  · omega

theorem grown_getD (l : List RequestArgument) (index i : Nat) :
    (if l.length ≤ index then resize l (index + 1) else l).getD i default
      = l.getD i default := by
  split
  · exact getD_resize l _ i (by omega)
  · rfl

theorem set_getD (l : List RequestArgument) (j i : Nat) (d : RequestArgument)
    (hj : j < l.length) :
    (l.set j d).getD i default = if i = j then d else l.getD i default := by
  rw [List.getD_eq_getElem?_getD, List.getD_eq_getElem?_getD, List.getElem?_set]
  by_cases h : j = i
  · subst h; simp [hj]
  · rw [if_neg h, if_neg (fun h2 => h h2.symm)]

theorem initInput_getD (acc : List RequestArgument × Nat) (op : Operand) (i : Nat) :
    (initInput acc op).1.getD i default
      = if i = op.index then inputDescriptor op.bytes.length else acc.1.getD i default := by
  rw [initInput_fst, set_getD _ _ _ _ (grown_length acc.1 op.index).1, grown_getD]

theorem initOutput_getD (acc : List RequestArgument × Nat) (op : Operand) (i : Nat) :
    (initOutput acc op).1.getD i default
      = if i = op.index then outputDescriptor op.bytes.length else acc.1.getD i default := by
  rw [initOutput_fst, set_getD _ _ _ _ (grown_length acc.1 op.index).1, grown_getD]

theorem initInput_length (acc : List RequestArgument × Nat) (op : Operand) :
    op.index < (initInput acc op).1.length ∧ acc.1.length ≤ (initInput acc op).1.length := by
  rw [initInput_fst, List.length_set]
  exact grown_length acc.1 op.index

theorem foldl_initInput_length_le (ops : MixedTyped) (acc : List RequestArgument × Nat) :
    acc.1.length ≤ (ops.foldl initInput acc).1.length := by
  induction ops generalizing acc with
  | nil => exact le_refl _
  | cons op ops ih =>
    rw [List.foldl_cons]
    exact le_trans (initInput_length acc op).2 (ih _)

theorem foldl_initInput_index_lt (ops : MixedTyped) (acc : List RequestArgument × Nat)
    (op : Operand) (hop : op ∈ ops) : op.index < (ops.foldl initInput acc).1.length := by
  induction ops generalizing acc with
  | nil => cases hop
  | cons a ops ih =>
    rw [List.foldl_cons]
    rcases List.mem_cons.1 hop with h | h
    · subst h
      exact lt_of_lt_of_le (initInput_length acc op).1 (foldl_initInput_length_le ops _)
    · exact ih _ h

theorem foldl_initInput_getD_of_not_mem (ops : MixedTyped) (acc : List RequestArgument × Nat)
    (i : Nat) (h : ∀ op ∈ ops, op.index ≠ i) :
    (ops.foldl initInput acc).1.getD i default = acc.1.getD i default := by
  induction ops generalizing acc with
  | nil => rfl
  | cons a ops ih =>
    rw [List.foldl_cons, ih _ (fun op hop => h op (List.mem_cons_of_mem _ hop)), initInput_getD,
      if_neg (fun h2 => h a (List.mem_cons_self _ _) h2.symm)]

/-- With distinct operand indices, the entry at an operand's index is the
descriptor recorded for that operand. -/
theorem foldl_initInput_getD_of_mem (ops : MixedTyped) (acc : List RequestArgument × Nat)
    (hnodup : (ops.map (fun op => op.index)).Nodup) (op : Operand) (hop : op ∈ ops) :
    (ops.foldl initInput acc).1.getD op.index default = inputDescriptor op.bytes.length := by
  induction ops generalizing acc with
  | nil => cases hop
  | cons a ops ih =>
    rw [List.map_cons, List.nodup_cons] at hnodup
    rw [List.foldl_cons]
    rcases List.mem_cons.1 hop with h | h
    · subst h
      rw [foldl_initInput_getD_of_not_mem, initInput_getD, if_pos rfl]
      intro b hb hidx
      exact hnodup.1 (List.mem_map.2 ⟨b, hb, hidx⟩)
    · exact ih _ hnodup.2 h

/-- Entry `k` after the input offset loop: the same descriptor, with the
running offset stored when it has a value. -/
theorem inputOffsets_getElem? (l : List RequestArgument) (o k : Nat) :
    (inputOffsets o l)[k]? = (l[k]?).map (withInputOffset (o + sumLengths (l.take k))) := by
  induction l generalizing o k with
  | nil => simp [inputOffsets]
  | cons i l ih =>
    cases k with
    | zero =>
      simp only [inputOffsets, List.getElem?_cons_zero, List.take_zero, Option.map_some',
        withInputOffset]
      rfl
    | succ k =>
      simp only [inputOffsets, List.getElem?_cons_succ, List.take_succ_cons, sumLengths_cons, ih]
      cases l[k]? with
      | none => rfl
      | some d =>
        simp only [Option.map_some', withInputOffset, Option.some.injEq]
        have hmod : ((o + i.location.length) % SIZE_MOD + sumLengths (List.take k l)) % UINT32_MOD
            = (o + (i.location.length + sumLengths (List.take k l))) % UINT32_MOD := by
          have hd : UINT32_MOD ∣ SIZE_MOD := by decide
          rw [Nat.add_mod, Nat.mod_mod_of_dvd _ hd, ← Nat.add_mod, Nat.add_assoc]
        rw [hmod]

/-- Every entry of the result was pushed for the dataset at the same position
(counted after the requests already present). -/
theorem createRequestsLoop_getElem? {σ : Type} (svc : MemoryService σ)
    (examples : List MixedTypedExample) (st : σ) (requests result : List Request)
    (hres : createRequestsLoop svc st examples requests = some result)
    (i : Nat) (r : Request) (hr : result[i]? = some r) :
    requests[i]? = some r ∨
    (requests.length ≤ i ∧ ∃ e st1, examples[i - requests.length]? = some e ∧
      (buildRequest svc st1 e).1 = BuildResult.pushed r) := by
  induction examples generalizing st requests with
  | nil =>
    simp only [createRequestsLoop, Option.some.injEq] at hres
    subst hres
    exact Or.inl hr
  | cons e rest ih =>
    unfold createRequestsLoop at hres
    split at hres
    · simp only [Option.some.injEq] at hres
      subst hres
      simp at hr
    · cases hres
    · rename_i request st1 hb
      rcases ih st1 _ hres with h1 | ⟨hle, e1, st2, he1, hb1⟩
      · by_cases hi : i < requests.length
        · rw [List.getElem?_append_left hi] at h1
          exact Or.inl h1
        · rw [List.getElem?_append_right (by omega)] at h1
          have hi0 : i - requests.length = 0 := by
            by_contra hne
            rw [List.getElem?_eq_none (by simp only [List.length_singleton]; omega)] at h1
            cases h1
          rw [hi0] at h1
          simp only [List.getElem?_cons_zero, Option.some.injEq] at h1
          refine Or.inr ⟨by omega, e, st, ?_, ?_⟩
          · rw [hi0, List.getElem?_cons_zero]
          · rw [hb, h1]
      · simp only [List.length_append, List.length_singleton] at hle he1
        refine Or.inr ⟨by omega, e1, st2, ?_, hb1⟩
        have : i - requests.length = (i - (requests.length + 1)) + 1 := by omega
        rw [this, List.getElem?_cons_succ]
        exact he1

/-- The request at position `i` of the result was pushed for the dataset at
position `i`. -/
theorem createRequests_getElem? {σ : Type} (svc : MemoryService σ) (st : σ)
    (examples : List MixedTypedExample) (result : List Request)
    (hres : createRequests svc st examples = some result)
    (i : Nat) (r : Request) (hr : result[i]? = some r) :
    ∃ e st1, examples[i]? = some e ∧ (buildRequest svc st1 e).1 = BuildResult.pushed r := by
  rcases createRequestsLoop_getElem? svc examples st [] result hres i r hr with h | ⟨-, h⟩
  · simp at h
  · simpa using h

theorem sumLengths_take_succ (l : List RequestArgument) (k : Nat) (hk : k < l.length) :
    sumLengths (l.take (k + 1))
      = sumLengths (l.take k) + (l.getD k default).location.length := by
  induction l generalizing k with
  | nil => simp at hk
  | cons a l ih =>
    cases k with
    | zero => simp [sumLengths]
    | succ k =>
      simp only [List.take_succ_cons, sumLengths_cons, List.getD_cons_succ]
      rw [ih k (by simpa using hk)]
      omega

theorem sumLengths_take_mono (l : List RequestArgument) (k m : Nat) (h : k ≤ m) :
    sumLengths (l.take k) ≤ sumLengths (l.take m) := by
  have : l.take k = (l.take m).take k := by
    rw [List.take_take, Nat.min_eq_left h]
  rw [this]
  exact sumLengths_take_le _ _

/-- The destination range of a later valued descriptor starts after the range
of an earlier one. -/
theorem sumLengths_take_step (l : List RequestArgument) (k m : Nat) (hk : k < l.length)
    (h : k < m) :
    sumLengths (l.take k) + (l.getD k default).location.length ≤ sumLengths (l.take m) := by
  rw [← sumLengths_take_succ l k hk]
  exact sumLengths_take_mono l (k + 1) m h

theorem mem_totalBytes (ops : MixedTyped) (op : Operand) (hop : op ∈ ops) :
    op.bytes.length ≤ totalBytes ops := by
  induction ops with
  | nil => cases hop
  | cons a ops ih =>
    rw [totalBytes_cons]
    rcases List.mem_cons.1 hop with h | h
    · subst h; omega
    · have := ih h; omega

/-- The descriptor that the built request holds for an input operand, when
operand indices are distinct. -/
theorem inputsInfo_getElem? (inputs : MixedTyped)
    (hnodup : (inputs.map (fun op => op.index)).Nodup) (op : Operand) (hop : op ∈ inputs) :
    (inputsInfo inputs).1[op.index]?
      = some (withInputOffset
          (sumLengths ((for_all inputs ([], 0) initInput).1.take op.index))
          (inputDescriptor op.bytes.length)) := by
  have hlt := foldl_initInput_index_lt inputs ([], 0) op hop
  have hget := foldl_initInput_getD_of_mem inputs ([], 0) hnodup op hop
  simp only [inputsInfo, for_all, inputOffsets_getElem?, Nat.zero_add]
  rw [List.getD_eq_getElem?_getD, List.getElem?_eq_getElem hlt] at hget
  rw [List.getElem?_eq_getElem hlt]
  simp only [Option.getD_some] at hget
  rw [hget]
  rfl

/-- Offset and length of the descriptor of a non-empty input operand, when
operand indices are distinct and the input bytes total less than `2^32`. -/
theorem inputsInfo_valued (inputs : MixedTyped)
    (hnodup : (inputs.map (fun op => op.index)).Nodup) (hsize : totalBytes inputs < 2 ^ 32)
    (op : Operand) (hop : op ∈ inputs) (hs : op.bytes.length ≠ 0) :
    op.index < (for_all inputs ([], 0) initInput).1.length ∧
    ((inputsInfo inputs).1.getD op.index default).location.offset
      = sumLengths ((for_all inputs ([], 0) initInput).1.take op.index) ∧
    ((for_all inputs ([], 0) initInput).1.getD op.index default).location.length
      = op.bytes.length := by
  have hlt := foldl_initInput_index_lt inputs ([], 0) op hop
  have hget := foldl_initInput_getD_of_mem inputs ([], 0) hnodup op hop
  have hle := mem_totalBytes inputs op hop
  have hsum := inputsInfo_sumLengths inputs
  have htake := sumLengths_take_le (for_all inputs ([], 0) initInput).1 op.index
  refine ⟨hlt, ?_, ?_⟩
  · rw [List.getD_eq_getElem?_getD, inputsInfo_getElem? inputs hnodup op hop]
    simp only [Option.getD_some, withInputOffset, inputDescriptor, hs, ne_eq, not_false_eq_true,
      if_true, Bool.false_eq_true, if_false]
    exact Nat.mod_eq_of_lt (by simp only [UINT32_MOD]; omega)
  · simp only [for_all] at hget ⊢
    rw [hget]
    simp only [inputDescriptor, hs, ne_eq, not_false_eq_true, if_true]
    exact Nat.mod_eq_of_lt (by simp only [UINT32_MOD]; omega)

/-- Destination ranges of operands with different indices do not meet. -/
theorem input_ranges_disjoint (inputs : MixedTyped)
    (hnodup : (inputs.map (fun op => op.index)).Nodup) (hsize : totalBytes inputs < 2 ^ 32)
    (a b : Operand) (ha : a ∈ inputs) (hb : b ∈ inputs) (hne : a.index ≠ b.index) (p : Nat) :
    ¬ ((((inputsInfo inputs).1.getD a.index default).location.offset ≤ p ∧
          p < ((inputsInfo inputs).1.getD a.index default).location.offset + a.bytes.length) ∧
        (((inputsInfo inputs).1.getD b.index default).location.offset ≤ p ∧
          p < ((inputsInfo inputs).1.getD b.index default).location.offset + b.bytes.length)) := by
  rintro ⟨⟨ha1, ha2⟩, ⟨hb1, hb2⟩⟩
  have hsa : a.bytes.length ≠ 0 := by omega
  have hsb : b.bytes.length ≠ 0 := by omega
  obtain ⟨hla, hoa, hlena⟩ := inputsInfo_valued inputs hnodup hsize a ha hsa
  obtain ⟨hlb, hob, hlenb⟩ := inputsInfo_valued inputs hnodup hsize b hb hsb
  rw [hoa] at ha1 ha2
  rw [hob] at hb1 hb2
  rcases Nat.lt_or_gt_of_ne hne with h | h
  · have := sumLengths_take_step _ a.index b.index hla h
    rw [hlena] at this
    omega
  · have := sumLengths_take_step _ b.index a.index hlb h
    rw [hlenb] at this
    omega

theorem input_ranges_pairwise (inputs : MixedTyped)
    (hnodup : (inputs.map (fun op => op.index)).Nodup) (hsize : totalBytes inputs < 2 ^ 32) :
    inputs.Pairwise (fun a b => ∀ p,
      ¬ ((((inputsInfo inputs).1.getD a.index default).location.offset ≤ p ∧
          p < ((inputsInfo inputs).1.getD a.index default).location.offset + a.bytes.length) ∧
         (((inputsInfo inputs).1.getD b.index default).location.offset ≤ p ∧
          p < ((inputsInfo inputs).1.getD b.index default).location.offset + b.bytes.length))) := by
  have hpw : inputs.Pairwise (fun a b => a.index ≠ b.index) := by
    have := hnodup
    unfold List.Nodup at this
    rwa [List.pairwise_map] at this
  exact hpw.imp_of_mem (fun ha hb hne p =>
    input_ranges_disjoint inputs hnodup hsize _ _ ha hb hne p)

/-- A region read back over a range equals a byte list when it agrees with it
position by position. -/
theorem take_drop_eq_of_getElem? (mem src : List Nat) (off : Nat)
    (h : ∀ p, off ≤ p ∧ p < off + src.length → mem[p]? = src[p - off]?) :
    (mem.drop off).take src.length = src := by
  apply List.ext_getElem?
  intro j
  rw [List.getElem?_take]
  by_cases hj : j < src.length
  · rw [if_pos hj, List.getElem?_drop, h (off + j) ⟨by omega, by omega⟩]
    congr 1
    omega
  · rw [if_neg hj, List.getElem?_eq_none (by omega)]

/-- C5. Input pool contents: when `createRequests` returns a request for a
dataset whose input operand indices are distinct and whose input bytes total
less than `2^32`, pool 0 of that request holds, for every input operand, the
operand's bytes at the positions from the offset of its descriptor on: a later
copy of another operand has not overwritten them. -/
theorem createRequests_input_pool_contents {σ : Type} (svc : MemoryService σ) (st : σ)
    (examples : List MixedTypedExample) (requests : List Request)
    (hres : createRequests svc st examples = some requests)
    (i : Nat) (e : MixedTypedExample) (r : Request)
    (he : examples[i]? = some e) (hr : requests[i]? = some r)
    (hnodup : (e.inputs.map (fun op => op.index)).Nodup)
    (hsize : totalBytes e.inputs < 2 ^ 32) :
    ∃ inputPool, r.pools[0]? = some inputPool ∧
      ∀ op ∈ e.inputs, ∃ d, r.inputs[op.index]? = some d ∧
        (inputPool.data.drop d.location.offset).take op.bytes.length = op.bytes := by
  obtain ⟨e1, st1, he1, hb⟩ := createRequests_getElem? svc st examples requests hres i r hr
  rw [he] at he1
  simp only [Option.some.injEq] at he1
  subst he1
  obtain ⟨hin, -, ⟨mem, hmem, hpools⟩, -, -⟩ := buildRequest_pushed svc st1 e r hb
  refine ⟨⟨mem⟩, by rw [hpools]; rfl, ?_⟩
  intro op hop
  have hd := inputsInfo_getElem? e.inputs hnodup op hop
  refine ⟨_, by rw [hin]; exact hd, ?_⟩
  simp only [for_all] at hmem
  have hoff : ((inputsInfo e.inputs).1.getD op.index default)
      = withInputOffset (sumLengths ((for_all e.inputs ([], 0) initInput).1.take op.index))
          (inputDescriptor op.bytes.length) := by
    rw [List.getD_eq_getElem?_getD, hd]
    rfl
  rw [← hoff]
  apply take_drop_eq_of_getElem?
  intro p hp
  exact foldl_copyInput_contents _ _ _ _ hmem (input_ranges_pairwise e.inputs hnodup hsize)
    op hop p hp

/-- Witness for C5: the sample dataset, whose operands are listed out of index
order. -/
theorem createRequests_input_pool_contents_witness :
    createRequests exactMemory () [sparseExample] = some [sparseRequest] ∧
    (sparseExample.inputs.map (fun op => op.index)).Nodup ∧
    totalBytes sparseExample.inputs < 2 ^ 32 ∧
    ∃ inputPool, sparseRequest.pools[0]? = some inputPool ∧
      ∀ op ∈ sparseExample.inputs, ∃ d, sparseRequest.inputs[op.index]? = some d ∧
        (inputPool.data.drop d.location.offset).take op.bytes.length = op.bytes :=
  ⟨by decide, by decide, by decide,
    createRequests_input_pool_contents exactMemory () [sparseExample] [sparseRequest]
      (by decide) 0 sparseExample sparseRequest rfl rfl (by decide) (by decide)⟩

/-! ### Descriptors fit their pool (C6) -/

/-- Entry `k` after the output offset loop: the same descriptor with the
running offset stored. -/
theorem outputOffsets_getElem? (l : List RequestArgument) (o k : Nat) :
    (outputOffsets o l)[k]? = (l[k]?).map (withOutputOffset (o + sumLengths (l.take k))) := by
  induction l generalizing o k with
  | nil => simp [outputOffsets]
  | cons i l ih =>
    cases k with
    | zero =>
      simp only [outputOffsets, List.getElem?_cons_zero, List.take_zero, Option.map_some',
        withOutputOffset]
      rfl
    | succ k =>
      simp only [outputOffsets, List.getElem?_cons_succ, List.take_succ_cons, sumLengths_cons, ih]
      cases l[k]? with
      | none => rfl
      | some d =>
        simp only [Option.map_some', withOutputOffset, Option.some.injEq]
        have hmod : ((o + i.location.length) % SIZE_MOD + sumLengths (List.take k l)) % UINT32_MOD
            = (o + (i.location.length + sumLengths (List.take k l))) % UINT32_MOD := by
          have hd : UINT32_MOD ∣ SIZE_MOD := by decide
          rw [Nat.add_mod, Nat.mod_mod_of_dvd _ hd, ← Nat.add_mod, Nat.add_assoc]
        rw [hmod]

theorem mem_inputOffsets (l : List RequestArgument) (o : Nat) (d : RequestArgument)
    (h : d ∈ inputOffsets o l) :
    ∃ k d0, l[k]? = some d0 ∧ d = withInputOffset (o + sumLengths (l.take k)) d0 := by
  obtain ⟨k, hk⟩ := List.mem_iff_getElem?.1 h
  rw [inputOffsets_getElem?] at hk
  cases hl : l[k]? with
  | none => rw [hl] at hk; cases hk
  | some d0 =>
    rw [hl] at hk
    simp only [Option.map_some', Option.some.injEq] at hk
    exact ⟨k, d0, hl, hk.symm⟩

theorem mem_outputOffsets (l : List RequestArgument) (o : Nat) (d : RequestArgument)
    (h : d ∈ outputOffsets o l) :
    ∃ k d0, l[k]? = some d0 ∧ d = withOutputOffset (o + sumLengths (l.take k)) d0 := by
  obtain ⟨k, hk⟩ := List.mem_iff_getElem?.1 h
  rw [outputOffsets_getElem?] at hk
  cases hl : l[k]? with
  | none => rw [hl] at hk; cases hk
  | some d0 =>
    rw [hl] at hk
    simp only [Option.map_some', Option.some.injEq] at hk
    exact ⟨k, d0, hl, hk.symm⟩

theorem withInputOffset_length (o : Nat) (d : RequestArgument) :
    (withInputOffset o d).location.length = d.location.length := by
  unfold withInputOffset
  split <;> rfl

theorem withInputOffset_hasNoValue (o : Nat) (d : RequestArgument) :
    (withInputOffset o d).hasNoValue = d.hasNoValue := by
  unfold withInputOffset
  split <;> rfl

theorem withInputOffset_poolIndex (o : Nat) (d : RequestArgument) :
    (withInputOffset o d).location.poolIndex = d.location.poolIndex := by
  unfold withInputOffset
  split <;> rfl

theorem withInputOffset_dimensions (o : Nat) (d : RequestArgument) :
    (withInputOffset o d).dimensions = d.dimensions := by
  unfold withInputOffset
  split <;> rfl

theorem sumLengths_inputOffsets (l : List RequestArgument) (o : Nat) :
    sumLengths (inputOffsets o l) = sumLengths l := by
  induction l generalizing o with
  | nil => rfl
  | cons i l ih =>
    simp only [inputOffsets, sumLengths_cons, ih]
    congr 1
    split <;> rfl

theorem sumLengths_outputOffsets (l : List RequestArgument) (o : Nat) :
    sumLengths (outputOffsets o l) = sumLengths l := by
  induction l generalizing o with
  | nil => rfl
  | cons i l ih => simp only [outputOffsets, sumLengths_cons, ih]

/-- Every descriptor produced by `initInput` is value-initialised or the
descriptor recorded for some byte count. -/
theorem foldl_initInput_mem (ops : MixedTyped) (acc : List RequestArgument × Nat)
    (hacc : ∀ d ∈ acc.1, d = default ∨ ∃ s, d = inputDescriptor s)
    (d : RequestArgument) (hd : d ∈ (ops.foldl initInput acc).1) :
    d = default ∨ ∃ s, d = inputDescriptor s := by
  induction ops generalizing acc with
  | nil => exact hacc d hd
  | cons op ops ih =>
    rw [List.foldl_cons] at hd
    refine ih (initInput acc op) ?_ hd
    intro x hx
    rw [initInput_fst] at hx
    rcases List.mem_or_eq_of_mem_set hx with hx | hx
    · split at hx
      · unfold resize at hx
        rcases List.mem_append.1 hx with hx | hx
        · exact hacc x (List.mem_of_mem_take hx)
        · exact Or.inl (List.eq_of_mem_replicate hx)
      · exact hacc x hx
    · exact Or.inr ⟨_, hx⟩

/-- Every descriptor produced by `initOutput` is value-initialised or the
descriptor recorded for some byte count. -/
theorem foldl_initOutput_mem (ops : MixedTyped) (acc : List RequestArgument × Nat)
    (hacc : ∀ d ∈ acc.1, d = default ∨ ∃ s, d = outputDescriptor s)
    (d : RequestArgument) (hd : d ∈ (ops.foldl initOutput acc).1) :
    d = default ∨ ∃ s, d = outputDescriptor s := by
  induction ops generalizing acc with
  | nil => exact hacc d hd
  | cons op ops ih =>
    rw [List.foldl_cons] at hd
    refine ih (initOutput acc op) ?_ hd
    intro x hx
    rw [initOutput_fst] at hx
    rcases List.mem_or_eq_of_mem_set hx with hx | hx
    · split at hx
      · unfold resize at hx
        rcases List.mem_append.1 hx with hx | hx
        · exact hacc x (List.mem_of_mem_take hx)
        · exact Or.inl (List.eq_of_mem_replicate hx)
      · exact hacc x hx
    · exact Or.inr ⟨_, hx⟩

theorem sumLengths_filter_le (p : RequestArgument → Bool) (l : List RequestArgument) :
    sumLengths (l.filter p) ≤ sumLengths l := by
  induction l with
  | nil => exact le_refl _
  | cons a l ih =>
    rw [List.filter_cons]
    split
    · rw [sumLengths_cons, sumLengths_cons]; omega
    · rw [sumLengths_cons]; omega

theorem sumLengths_eq_zero (l : List RequestArgument)
    (h : ∀ d ∈ l, d.location.length = 0) : sumLengths l = 0 := by
  induction l with
  | nil => rfl
  | cons a l ih =>
    rw [sumLengths_cons, h a (List.mem_cons_self _ _),
      ih (fun d hd => h d (List.mem_cons_of_mem _ hd))]

/-- Every input descriptor of a built list refers to pool 0. -/
theorem inputsInfo_poolIndex (inputs : MixedTyped) (d : RequestArgument)
    (hd : d ∈ (inputsInfo inputs).1) : d.location.poolIndex = 0 := by
  obtain ⟨k, d0, hk, rfl⟩ := mem_inputOffsets _ _ _ hd
  rw [withInputOffset_poolIndex]
  have hmem : d0 ∈ (List.foldl initInput ([], 0) inputs).1 :=
    List.mem_iff_getElem?.2 ⟨k, hk⟩
  rcases foldl_initInput_mem inputs ([], 0) (fun _ h => by cases h) d0 hmem with h | ⟨s, h⟩
  · rw [h]; rfl
  · rw [h]; unfold inputDescriptor; split <;> rfl

/-- An output descriptor of a built list that refers to pool 0 has length 0. -/
theorem outputsInfo_poolIndex_zero (outputs : MixedTyped) (d : RequestArgument)
    (hd : d ∈ (outputsInfo outputs).1) (hp : d.location.poolIndex = 0) :
    d.location.length = 0 := by
  obtain ⟨k, d0, hk, rfl⟩ := mem_outputOffsets _ _ _ hd
  have hmem : d0 ∈ (List.foldl initOutput ([], 0) outputs).1 :=
    List.mem_iff_getElem?.2 ⟨k, hk⟩
  rcases foldl_initOutput_mem outputs ([], 0) (fun _ h => by cases h) d0 hmem with h | ⟨s, h⟩
  · rw [h]; rfl
  · rw [h] at hp
    simp [withOutputOffset, outputDescriptor, OUTPUT] at hp

theorem inputsInfo_size (inputs : MixedTyped) :
    (inputsInfo inputs).2 = totalBytes inputs % UINT32_MOD := by
  have := foldl_initInput_size inputs ([], 0) (by decide)
  simpa [inputsInfo, for_all] using this

theorem outputsInfo_size (outputs : MixedTyped) :
    (outputsInfo outputs).2 = totalBytes outputs % UINT32_MOD := by
  have := foldl_initOutput_size outputs ([], 0) (by decide)
  simpa [outputsInfo, for_all] using this

/-- A descriptor and the lengths before it are within the sum of all
lengths. -/
theorem sumLengths_take_add_le (l : List RequestArgument) (k : Nat) (d0 : RequestArgument)
    (hk : l[k]? = some d0) :
    sumLengths (l.take k) + d0.location.length ≤ sumLengths l := by
  have hlt : k < l.length := (List.getElem?_eq_some_iff.1 hk).1
  have h1 := sumLengths_take_succ l k hlt
  have h2 := sumLengths_take_le l (k + 1)
  rw [List.getD_eq_getElem?_getD, hk] at h1
  simp only [Option.getD_some] at h1
  omega

/-- C6. Descriptors fit their pool: with an allocator that returns pools of
the requested size and datasets whose input bytes and output bytes each total
less than `2^32`, every request returned by `createRequests` has two pools;
every input descriptor that is not `hasNoValue` ends within pool 0, every
output descriptor ends within pool 1, and the size of each pool is at least
the sum of the lengths of the descriptors (of either list) whose pool index
refers to it. -/
theorem createRequests_descriptors_fit {σ : Type} (svc : MemoryService σ) (st : σ)
    (examples : List MixedTypedExample) (requests : List Request)
    (hexact : ∀ s n, ((svc.allocateSharedMemory s n).1).size = n)
    (hsize : ∀ e ∈ examples, totalBytes e.inputs < 2 ^ 32 ∧ totalBytes e.outputs < 2 ^ 32)
    (hres : createRequests svc st examples = some requests)
    (r : Request) (hr : r ∈ requests) :
    ∃ inputPool outputPool, r.pools = [inputPool, outputPool] ∧
      (∀ d ∈ r.inputs, d.hasNoValue = false →
        d.location.offset + d.location.length ≤ inputPool.size) ∧
      (∀ d ∈ r.outputs, d.location.offset + d.location.length ≤ outputPool.size) ∧
      sumLengths ((r.inputs ++ r.outputs).filter (fun d => d.location.poolIndex = 0))
        ≤ inputPool.size ∧
      sumLengths ((r.inputs ++ r.outputs).filter (fun d => d.location.poolIndex = 1))
        ≤ outputPool.size := by
  obtain ⟨e, he, st1, hb⟩ := mem_createRequests svc st examples requests r hres hr
  obtain ⟨hin, hout, ⟨mem, hmem, hpools⟩, -, -⟩ := buildRequest_pushed svc st1 e r hb
  obtain ⟨hsi, hso⟩ := hsize e he
  simp only [for_all] at hmem
  obtain ⟨hlen, -, -⟩ := foldl_copyInput_some _ _ _ _ hmem
  have hpin : (⟨mem⟩ : hidl_memory).size = totalBytes e.inputs := by
    have h1 : (allocatedInputPool svc st1 e).size = (inputsInfo e.inputs).2 := hexact _ _
    rw [inputsInfo_size, Nat.mod_eq_of_lt (by simp only [UINT32_MOD]; omega)] at h1
    simp only [hidl_memory.size] at h1 ⊢
    omega
  have hpout : (allocatedOutputPool svc st1 e).size = totalBytes e.outputs := by
    have h1 : (allocatedOutputPool svc st1 e).size = (outputsInfo e.outputs).2 := hexact _ _
    rw [outputsInfo_size, Nat.mod_eq_of_lt (by simp only [UINT32_MOD]; omega)] at h1
    exact h1
  have hsumIn := inputsInfo_sumLengths e.inputs
  have hsumOut := outputsInfo_sumLengths e.outputs
  refine ⟨⟨mem⟩, allocatedOutputPool svc st1 e, hpools, ?_, ?_, ?_, ?_⟩
  · intro d hd hv
    rw [hin] at hd
    obtain ⟨k, d0, hk, rfl⟩ := mem_inputOffsets _ _ _ hd
    rw [withInputOffset_hasNoValue] at hv
    have hfit := sumLengths_take_add_le _ k d0 hk
    rw [hpin, withInputOffset_length]
    have hoff : (withInputOffset (0 + sumLengths (List.take k
        (for_all e.inputs ([], 0) initInput).1)) d0).location.offset
        = sumLengths (List.take k (for_all e.inputs ([], 0) initInput).1) := by
      simp only [withInputOffset, hv, Bool.false_eq_true, if_false, Nat.zero_add]
      exact Nat.mod_eq_of_lt (by simp only [UINT32_MOD]; omega)
    rw [hoff]
    omega
  · intro d hd
    rw [hout] at hd
    obtain ⟨k, d0, hk, rfl⟩ := mem_outputOffsets _ _ _ hd
    have hfit := sumLengths_take_add_le _ k d0 hk
    rw [hpout]
    have hoff : (withOutputOffset (0 + sumLengths (List.take k
        (for_all e.outputs ([], 0) initOutput).1)) d0).location.offset
        = sumLengths (List.take k (for_all e.outputs ([], 0) initOutput).1) := by
      simp only [withOutputOffset, Nat.zero_add]
      exact Nat.mod_eq_of_lt (by simp only [UINT32_MOD]; omega)
    rw [hoff]
    simp only [withOutputOffset]
    omega
  · rw [List.filter_append, sumLengths_append, hpin]
    have h1 := sumLengths_filter_le (fun d => decide (d.location.poolIndex = 0)) r.inputs
    have h2 : sumLengths (r.outputs.filter (fun d => decide (d.location.poolIndex = 0))) = 0 := by
      apply sumLengths_eq_zero
      intro d hd
      obtain ⟨hd1, hd2⟩ := List.mem_filter.1 hd
      rw [hout] at hd1
      exact outputsInfo_poolIndex_zero e.outputs d hd1 (by simpa using hd2)
    rw [hin] at h1
    have h3 : sumLengths (inputsInfo e.inputs).1 = sumLengths (for_all e.inputs ([], 0) initInput).1 :=
      sumLengths_inputOffsets _ _
    rw [hin, h2]
    omega
  · rw [List.filter_append, sumLengths_append, hpout]
    have h1 := sumLengths_filter_le (fun d => decide (d.location.poolIndex = 1)) r.outputs
    have h2 : r.inputs.filter (fun d => decide (d.location.poolIndex = 1)) = [] := by
      rw [List.filter_eq_nil_iff]
      intro d hd
      rw [hin] at hd
      have := inputsInfo_poolIndex e.inputs d hd
      simp [this]
    rw [hout] at h1
    have h3 : sumLengths (outputsInfo e.outputs).1
        = sumLengths (for_all e.outputs ([], 0) initOutput).1 :=
      sumLengths_outputOffsets _ _
    rw [h2, hout]
    simp only [sumLengths, List.map_nil, List.sum_nil, Nat.zero_add] at h1 h3 hsumOut ⊢
    omega

/-- Witness for C6: the sample dataset built with the exact allocator. -/
theorem createRequests_descriptors_fit_witness :
    (∀ s n, ((exactMemory.allocateSharedMemory s n).1).size = n) ∧
    (∀ e ∈ [sparseExample], totalBytes e.inputs < 2 ^ 32 ∧ totalBytes e.outputs < 2 ^ 32) ∧
    createRequests exactMemory () [sparseExample] = some [sparseRequest] ∧
    ∃ inputPool outputPool, sparseRequest.pools = [inputPool, outputPool] ∧
      (∀ d ∈ sparseRequest.inputs, d.hasNoValue = false →
        d.location.offset + d.location.length ≤ inputPool.size) ∧
      (∀ d ∈ sparseRequest.outputs, d.location.offset + d.location.length ≤ outputPool.size) ∧
      sumLengths ((sparseRequest.inputs ++ sparseRequest.outputs).filter
        (fun d => d.location.poolIndex = 0)) ≤ inputPool.size ∧
      sumLengths ((sparseRequest.inputs ++ sparseRequest.outputs).filter
        (fun d => d.location.poolIndex = 1)) ≤ outputPool.size :=
  ⟨fun _ n => List.length_replicate n 0, by decide, by decide,
    createRequests_descriptors_fit exactMemory () [sparseExample] [sparseRequest]
      (fun _ n => List.length_replicate n 0) (by decide) (by decide) sparseRequest (by decide)⟩

/-! ### Dataset without inputs (C9) -/

/-- An input pool of size zero makes the iteration return the empty vector. -/
theorem buildRequest_returnedEmpty_of_input_size_zero {σ : Type} (svc : MemoryService σ) (st : σ)
    (e : MixedTypedExample) (h : (allocatedInputPool svc st e).size = 0) :
    (buildRequest svc st e).1 = BuildResult.returnedEmpty := by
  unfold allocatedInputPool at h
  unfold buildRequest
  simp only [h, true_or, if_true]

/-- C9 (as stated, refuted). For the dataset with no input and one output of
two bytes, built with the exact allocator, `createRequests` returns no request
and `validateRequests` submits nothing on its result, not one variant. -/
theorem zero_input_scenario_submits_nothing :
    noInputExample.inputs.length = 0 ∧
    noInputExample.outputs.map (fun op => op.bytes.length) = [2] ∧
    createRequests exactMemory () [noInputExample] = some [] ∧
    (createRequests exactMemory () [noInputExample]).map
        (fun requests => (validateRequests rejectingModel 0 requests).1.map (fun c => c.submitted))
      = some [] := by
  decide

/-- C9 (amended). With an allocator that returns pools of the requested size,
a dataset without inputs asks for an input pool of size 0, so `createRequests`
returns the empty list and `validateRequests` submits no variant on it. A
request that has no input descriptor and one output descriptor gets exactly one
variant submitted, the one with output 0 removed, and no input-removal
variant. -/
theorem zero_input_scenario {σ τ : Type} (svc : MemoryService σ) (st : σ)
    (e : MixedTypedExample) (pm : IPreparedModel τ) (st1 : τ)
    (hexact : ∀ s n, ((svc.allocateSharedMemory s n).1).size = n)
    (hin : e.inputs = []) :
    createRequests svc st [e] = some [] ∧
    (validateRequests pm st1 []).1 = [] ∧
    (∀ r : Request, r.inputs = [] → r.outputs.length = 1 →
      (validateRequests pm st1 [r]).1.map (fun c => c.submitted)
        = [{ inputs := [], outputs := [], pools := r.pools }]) := by
  refine ⟨?_, rfl, ?_⟩
  · have h0 : (allocatedInputPool svc st e).size = 0 := by
      unfold allocatedInputPool
      rw [hexact, hin]
      rfl
    have hb := buildRequest_returnedEmpty_of_input_size_zero svc st e h0
    unfold createRequests createRequestsLoop
    rcases hbuild : buildRequest svc st e with ⟨b, st2⟩
    rw [hbuild] at hb
    simp only at hb
    subst hb
    rfl
  · intro r hr ho
    rw [validateRequests_submitted]
    obtain ⟨ins, outs, pools⟩ := r
    simp only at hr ho
    subst hr
    match outs, ho with
    | [d], _ => rfl

/-- Witness for C9 (amended): the dataset without inputs, and the request with
one output descriptor only. -/
theorem zero_input_scenario_witness :
    (∀ s n, ((exactMemory.allocateSharedMemory s n).1).size = n) ∧
    noInputExample.inputs = [] ∧
    createRequests exactMemory () [noInputExample] = some [] ∧
    (validateRequests rejectingModel 0
        [{ inputs := [], outputs := [⟨false, ⟨1, 0, 2⟩, []⟩], pools := [] }]).1.map
        (fun c => c.submitted)
      = [{ inputs := [], outputs := [], pools := [] }] :=
  ⟨fun _ n => List.length_replicate n 0, rfl,
    (zero_input_scenario exactMemory () noInputExample rejectingModel 0
      (fun _ n => List.length_replicate n 0) rfl).1,
    (zero_input_scenario exactMemory () noInputExample rejectingModel 0
      (fun _ n => List.length_replicate n 0) rfl).2.2
      { inputs := [], outputs := [⟨false, ⟨1, 0, 2⟩, []⟩], pools := [] } rfl rfl⟩

/-! ### Shape of the input descriptors (C10) -/

/-- The copies succeed when every destination range lies inside the region. -/
theorem foldl_copyInput_isSome (info : List RequestArgument) (ops : MixedTyped) (mem : List Nat)
    (h : ∀ op ∈ ops, (info.getD op.index default).location.offset + op.bytes.length
      ≤ mem.length) :
    ∃ mem1, ops.foldl (copyInput info) (some mem) = some mem1 := by
  induction ops generalizing mem with
  | nil => exact ⟨mem, rfl⟩
  | cons op ops ih =>
    rw [List.foldl_cons, copyInput_some]
    have hop := h op (List.mem_cons_self _ _)
    have hc : std_copy op.bytes (info.getD op.index default).location.offset mem
        = some (mem.take (info.getD op.index default).location.offset ++ op.bytes
            ++ mem.drop ((info.getD op.index default).location.offset + op.bytes.length)) := by
      unfold std_copy
      rw [if_pos hop]
    rw [hc]
    apply ih
    intro b hb
    have hlen := (std_copy_some _ _ _ _ hc).2.1
    rw [hlen]
    exact h b (List.mem_cons_of_mem _ hb)

/-- An iteration pushes a request when both pools have a non-zero size, the
input pool can be mapped and the copies stay inside it. -/
theorem buildRequest_pushed_of {σ : Type} (svc : MemoryService σ) (st : σ)
    (e : MixedTypedExample) (inputMemory : IMemory) (mem : List Nat)
    (hin : (allocatedInputPool svc st e).size ≠ 0)
    (hout : (allocatedOutputPool svc st e).size ≠ 0)
    (hmap : (svc.mapMemory
        (svc.allocateSharedMemory (svc.allocateSharedMemory st (inputsInfo e.inputs).2).2
          (outputsInfo e.outputs).2).2 (allocatedInputPool svc st e)).1 = some inputMemory)
    (hptr : inputMemory.pointerNonNull = true)
    (hcopy : for_all e.inputs (some (allocatedInputPool svc st e).data)
        (copyInput (inputsInfo e.inputs).1) = some mem) :
    (buildRequest svc st e).1 = BuildResult.pushed
      { inputs := (inputsInfo e.inputs).1, outputs := (outputsInfo e.outputs).1,
        pools := [⟨mem⟩, allocatedOutputPool svc st e] } := by
  unfold allocatedInputPool at hin hmap hcopy
  unfold allocatedOutputPool at hout
  unfold buildRequest
  simp only
  rw [if_neg (by intro h; rcases h with h | h; exact hin h; exact hout h)]
  rcases hm : svc.mapMemory
      (svc.allocateSharedMemory (svc.allocateSharedMemory st (inputsInfo e.inputs).2).2
        (outputsInfo e.outputs).2).2
      (svc.allocateSharedMemory st (inputsInfo e.inputs).2).1 with ⟨m, st3⟩
  rw [hm] at hmap
  simp only at hmap
  subst hmap
  simp only [hptr, Bool.true_eq_false, if_false, hcopy]
  rfl

theorem hugeBuffer_length : hugeBuffer.length = UINT32_MOD := List.length_replicate _ _

theorem inputDescriptor_hasNoValue (s : Nat) :
    (inputDescriptor s).hasNoValue = true ↔ s = 0 := by
  unfold inputDescriptor
  by_cases h : s = 0 <;> simp [h]

theorem inputDescriptor_valued (s : Nat) (hs : 0 < s) :
    inputDescriptor s = ⟨false, ⟨0, 0, s % UINT32_MOD⟩, []⟩ := by
  unfold inputDescriptor
  rw [if_pos (by omega)]
  rfl

theorem inputDescriptor_length (s : Nat) :
    (inputDescriptor s).location.length = s % UINT32_MOD := by
  unfold inputDescriptor
  by_cases h : s = 0
  · subst h; rfl
  · rw [if_pos h]

/-- Every `hasNoValue` descriptor of a built input list has length 0. -/
theorem inputsInfo_fst_noValueZero (inputs : MixedTyped) : NoValueZero (inputsInfo inputs).1 := by
  intro d hd hv
  obtain ⟨k, d0, hk, rfl⟩ := mem_inputOffsets _ _ _ hd
  rw [withInputOffset_hasNoValue] at hv
  rw [withInputOffset_length]
  exact inputsInfo_noValueZero inputs d0 (List.mem_iff_getElem?.2 ⟨k, hk⟩) hv

/-- C10. Input descriptor shape: with an allocator that never returns a pool
larger than requested (`nn::allocateSharedMemory` returns a memory of the
requested size, or an empty one), when `createRequests` returns a request for
a dataset with distinct input operand indices, then for every input operand
with index `k` and byte length `s` the descriptor `inputs[k]` is `hasNoValue`
if and only if `s = 0`; when `s > 0` it is not `hasNoValue`, refers to pool 0,
has length `s` and an empty dimensions list. A `hasNoValue` descriptor has
length 0, so the sum of the lengths up to and including it, from which the
offsets of the later descriptors are taken, equals the sum of the lengths
before it. -/
theorem createRequests_input_descriptor_shape {σ : Type} (svc : MemoryService σ) (st : σ)
    (examples : List MixedTypedExample) (requests : List Request)
    (halloc : ∀ s n, ((svc.allocateSharedMemory s n).1).size ≤ n)
    (hres : createRequests svc st examples = some requests)
    (i : Nat) (e : MixedTypedExample) (r : Request)
    (he : examples[i]? = some e) (hr : requests[i]? = some r)
    (hnodup : (e.inputs.map (fun op => op.index)).Nodup) :
    (∀ op ∈ e.inputs, ∃ d, r.inputs[op.index]? = some d ∧
      (d.hasNoValue = true ↔ op.bytes.length = 0) ∧
      (0 < op.bytes.length →
        d.hasNoValue = false ∧ d.location.poolIndex = 0 ∧
        d.location.length = op.bytes.length ∧ d.dimensions = [])) ∧
    (∀ d ∈ r.inputs, d.hasNoValue = true → d.location.length = 0) ∧
    (∀ k d, r.inputs[k]? = some d → d.hasNoValue = true →
      sumLengths (r.inputs.take (k + 1)) = sumLengths (r.inputs.take k)) := by
  obtain ⟨e1, st1, he1, hb⟩ := createRequests_getElem? svc st examples requests hres i r hr
  rw [he] at he1
  simp only [Option.some.injEq] at he1
  subst he1
  obtain ⟨hin, -, ⟨mem, hmem, -⟩, -, -⟩ := buildRequest_pushed svc st1 e r hb
  have hzero : ∀ d ∈ r.inputs, d.hasNoValue = true → d.location.length = 0 := by
    rw [hin]
    exact inputsInfo_fst_noValueZero e.inputs
  refine ⟨?_, hzero, ?_⟩
  · intro op hop
    have hfit : op.bytes.length % UINT32_MOD = op.bytes.length := by
      apply Nat.mod_eq_of_lt
      simp only [for_all] at hmem
      have hbound := (foldl_copyInput_some _ _ _ _ hmem).2.1 op hop
      have hle : (allocatedInputPool svc st1 e).size ≤ (inputsInfo e.inputs).2 := halloc _ _
      have hlt : (inputsInfo e.inputs).2 < UINT32_MOD := by
        rw [inputsInfo_size]
        exact Nat.mod_lt _ (by decide)
      simp only [hidl_memory.size] at hle
      omega
    refine ⟨_, by rw [hin]; exact inputsInfo_getElem? e.inputs hnodup op hop, ?_, ?_⟩
    · rw [withInputOffset_hasNoValue]
      exact inputDescriptor_hasNoValue _
    · intro hs
      rw [inputDescriptor_valued _ hs, hfit]
      exact ⟨rfl, rfl, rfl, rfl⟩
  · intro k d hk hv
    have hlt : k < r.inputs.length := (List.getElem?_eq_some_iff.1 hk).1
    rw [sumLengths_take_succ _ k hlt, List.getD_eq_getElem?_getD, hk]
    simp only [Option.getD_some]
    rw [hzero d (List.mem_iff_getElem?.2 ⟨k, hk⟩) hv]
    rfl

/-- Witness for C10: an input of 4 bytes at index 0 and an empty input at
index 1, built with the exact allocator. -/
theorem createRequests_input_descriptor_shape_witness :
    (∀ s n, ((exactMemory.allocateSharedMemory s n).1).size ≤ n) ∧
    createRequests exactMemory () [emptyInputExample] = some [emptyInputRequest] ∧
    (emptyInputExample.inputs.map (fun op => op.index)).Nodup ∧
    (∀ op ∈ emptyInputExample.inputs, ∃ d, emptyInputRequest.inputs[op.index]? = some d ∧
      (d.hasNoValue = true ↔ op.bytes.length = 0) ∧
      (0 < op.bytes.length →
        d.hasNoValue = false ∧ d.location.poolIndex = 0 ∧
        d.location.length = op.bytes.length ∧ d.dimensions = [])) :=
  ⟨fun _ n => le_of_eq (List.length_replicate n 0), by decide, by decide,
    (createRequests_input_descriptor_shape exactMemory () [emptyInputExample]
      [emptyInputRequest] (fun _ n => le_of_eq (List.length_replicate n 0)) (by decide) 0
      emptyInputExample emptyInputRequest rfl rfl (by decide)).1⟩

/-! ### When the result is defined -/

/-- With distinct operand indices and fewer than `2^32` input bytes, every
copy ends within the first `totalBytes` bytes of the input pool. -/
theorem copy_range_le_totalBytes (inputs : MixedTyped)
    (hnodup : (inputs.map (fun op => op.index)).Nodup) (hsize : totalBytes inputs < 2 ^ 32)
    (op : Operand) (hop : op ∈ inputs) :
    ((inputsInfo inputs).1.getD op.index default).location.offset + op.bytes.length
      ≤ totalBytes inputs := by
  by_cases hs : op.bytes.length = 0
  · rw [List.getD_eq_getElem?_getD, inputsInfo_getElem? inputs hnodup op hop, hs]
    exact Nat.zero_le _
  · obtain ⟨hlt, hoff, hlen⟩ := inputsInfo_valued inputs hnodup hsize op hop hs
    have h1 := sumLengths_take_succ _ op.index hlt
    have h2 := sumLengths_take_le (for_all inputs ([], 0) initInput).1 (op.index + 1)
    have h3 := inputsInfo_sumLengths inputs
    rw [hoff]
    omega

/-- No copy leaves the input pool when operand indices are distinct, the input
bytes total less than `2^32` and the pool has at least the requested size. -/
theorem buildRequest_defined {σ : Type} (svc : MemoryService σ) (st : σ) (e : MixedTypedExample)
    (hnodup : (e.inputs.map (fun op => op.index)).Nodup) (hsize : totalBytes e.inputs < 2 ^ 32)
    (hpool : (allocatedInputPool svc st e).size = 0 ∨
      (inputsInfo e.inputs).2 ≤ (allocatedInputPool svc st e).size) :
    (buildRequest svc st e).1 ≠ BuildResult.outOfBounds := by
  rcases hpool with h0 | hle
  · rw [buildRequest_returnedEmpty_of_input_size_zero svc st e h0]
    exact fun h => by cases h
  · rw [inputsInfo_size, Nat.mod_eq_of_lt (by simp only [UINT32_MOD]; omega)] at hle
    obtain ⟨mem, hmem⟩ := foldl_copyInput_isSome (inputsInfo e.inputs).1 e.inputs
      (allocatedInputPool svc st e).data
      (fun op hop => le_trans (copy_range_le_totalBytes e.inputs hnodup hsize op hop) hle)
    unfold allocatedInputPool at hmem
    unfold buildRequest
    simp only [for_all, hmem]
    split
    · exact fun h => by cases h
    · split
      · exact fun h => by cases h
      · split <;> exact fun h => by cases h

/-- The call returns a vector when, for every dataset, operand indices are
distinct and the input bytes total less than `2^32`, and every allocation
fails or delivers at least the requested size. -/
theorem createRequestsLoop_defined {σ : Type} (svc : MemoryService σ)
    (examples : List MixedTypedExample) (st : σ) (requests : List Request)
    (halloc : ∀ s n, ((svc.allocateSharedMemory s n).1).size = 0 ∨
      n ≤ ((svc.allocateSharedMemory s n).1).size)
    (hex : ∀ e ∈ examples, (e.inputs.map (fun op => op.index)).Nodup ∧
      totalBytes e.inputs < 2 ^ 32) :
    ∃ result, createRequestsLoop svc st examples requests = some result := by
  induction examples generalizing st requests with
  | nil => exact ⟨requests, rfl⟩
  | cons e rest ih =>
    have hdef := buildRequest_defined svc st e (hex e (List.mem_cons_self _ _)).1
      (hex e (List.mem_cons_self _ _)).2 (halloc _ _)
    unfold createRequestsLoop
    rcases hb : buildRequest svc st e with ⟨b, st1⟩
    rw [hb] at hdef
    cases b with
    | returnedEmpty => exact ⟨[], rfl⟩
    | outOfBounds => exact absurd rfl hdef
    | pushed r => exact ih st1 _ (fun e1 he1 => hex e1 (List.mem_cons_of_mem _ he1))

/-! ### Scenario with a zero-length input (C11) -/

theorem initOutput_length (acc : List RequestArgument × Nat) (op : Operand) :
    op.index < (initOutput acc op).1.length ∧ acc.1.length ≤ (initOutput acc op).1.length := by
  rw [initOutput_fst, List.length_set]
  exact grown_length acc.1 op.index

theorem foldl_initOutput_length_le (ops : MixedTyped) (acc : List RequestArgument × Nat) :
    acc.1.length ≤ (ops.foldl initOutput acc).1.length := by
  induction ops generalizing acc with
  | nil => exact le_refl _
  | cons op ops ih =>
    rw [List.foldl_cons]
    exact le_trans (initOutput_length acc op).2 (ih _)

theorem foldl_initOutput_index_lt (ops : MixedTyped) (acc : List RequestArgument × Nat)
    (op : Operand) (hop : op ∈ ops) : op.index < (ops.foldl initOutput acc).1.length := by
  induction ops generalizing acc with
  | nil => cases hop
  | cons a ops ih =>
    rw [List.foldl_cons]
    rcases List.mem_cons.1 hop with h | h
    · subst h
      exact lt_of_lt_of_le (initOutput_length acc op).1 (foldl_initOutput_length_le ops _)
    · exact ih _ h

theorem foldl_initOutput_getD_of_not_mem (ops : MixedTyped) (acc : List RequestArgument × Nat)
    (i : Nat) (h : ∀ op ∈ ops, op.index ≠ i) :
    (ops.foldl initOutput acc).1.getD i default = acc.1.getD i default := by
  induction ops generalizing acc with
  | nil => rfl
  | cons a ops ih =>
    rw [List.foldl_cons, ih _ (fun op hop => h op (List.mem_cons_of_mem _ hop)), initOutput_getD,
      if_neg (fun h2 => h a (List.mem_cons_self _ _) h2.symm)]

/-- The entry at an index carried by some output operand is the descriptor
recorded for an operand with that index (the last one visited). -/
theorem foldl_initOutput_getD_of_index (ops : MixedTyped) (acc : List RequestArgument × Nat)
    (i : Nat) (h : ∃ op ∈ ops, op.index = i) :
    ∃ op ∈ ops, op.index = i ∧
      (ops.foldl initOutput acc).1.getD i default = outputDescriptor op.bytes.length := by
  induction ops generalizing acc with
  | nil => obtain ⟨op, hop, -⟩ := h; cases hop
  | cons a ops ih =>
    rw [List.foldl_cons]
    by_cases hrest : ∃ op ∈ ops, op.index = i
    · obtain ⟨op, hop, hidx, hget⟩ := ih (initOutput acc a) hrest
      exact ⟨op, List.mem_cons_of_mem _ hop, hidx, hget⟩
    · have hnot : ∀ op ∈ ops, op.index ≠ i := fun op hop hidx => hrest ⟨op, hop, hidx⟩
      obtain ⟨op, hop, hidx⟩ := h
      rcases List.mem_cons.1 hop with h1 | h1
      · subst h1
        refine ⟨op, List.mem_cons_self _ _, hidx, ?_⟩
        rw [foldl_initOutput_getD_of_not_mem _ _ _ hnot, initOutput_getD, if_pos hidx.symm]
      · exact absurd hidx (hnot op h1)

/-- With distinct operand indices, the entry at an output operand's index is
the descriptor recorded for that operand. -/
theorem foldl_initOutput_getD_of_mem (ops : MixedTyped) (acc : List RequestArgument × Nat)
    (hnodup : (ops.map (fun op => op.index)).Nodup) (op : Operand) (hop : op ∈ ops) :
    (ops.foldl initOutput acc).1.getD op.index default = outputDescriptor op.bytes.length := by
  induction ops generalizing acc with
  | nil => cases hop
  | cons a ops ih =>
    rw [List.map_cons, List.nodup_cons] at hnodup
    rw [List.foldl_cons]
    rcases List.mem_cons.1 hop with h | h
    · subst h
      rw [foldl_initOutput_getD_of_not_mem, initOutput_getD, if_pos rfl]
      intro b hb hidx
      exact hnodup.1 (List.mem_map.2 ⟨b, hb, hidx⟩)
    · exact ih _ hnodup.2 h

/-- Entry of the built output list at an index below its length, in terms of
the entry before the offset loop. -/
theorem outputsInfo_getElem?_of_lt (outputs : MixedTyped) (k : Nat)
    (hk : k < (for_all outputs ([], 0) initOutput).1.length) :
    (outputsInfo outputs).1[k]?
      = some (withOutputOffset
          (sumLengths ((for_all outputs ([], 0) initOutput).1.take k))
          ((for_all outputs ([], 0) initOutput).1.getD k default)) := by
  simp only [outputsInfo, outputOffsets_getElem?, Nat.zero_add]
  rw [List.getD_eq_getElem?_getD, List.getElem?_eq_getElem hk]
  rfl

/-- The descriptor that the built request holds for an output operand, when
operand indices are distinct. -/
theorem outputsInfo_getElem? (outputs : MixedTyped)
    (hnodup : (outputs.map (fun op => op.index)).Nodup) (op : Operand) (hop : op ∈ outputs) :
    (outputsInfo outputs).1[op.index]?
      = some (withOutputOffset
          (sumLengths ((for_all outputs ([], 0) initOutput).1.take op.index))
          (outputDescriptor op.bytes.length)) := by
  rw [outputsInfo_getElem?_of_lt outputs op.index (foldl_initOutput_index_lt outputs ([], 0) op hop)]
  have hget := foldl_initOutput_getD_of_mem outputs ([], 0) hnodup op hop
  simp only [for_all] at hget ⊢
  rw [hget]

theorem outputsInfo_length (outputs : MixedTyped) :
    (outputsInfo outputs).1.length = (for_all outputs ([], 0) initOutput).1.length :=
  outputOffsets_length _ _

/-- An entry of the output list before the offset loop at an index that no
operand carries is value-initialised. -/
theorem foldl_initOutput_gap (outputs : MixedTyped) (k : Nat)
    (h : ∀ op ∈ outputs, op.index ≠ k) :
    (for_all outputs ([], 0) initOutput).1.getD k default = default := by
  simp only [for_all]
  rw [foldl_initOutput_getD_of_not_mem outputs ([], 0) k h]
  rfl

theorem outputDescriptor_UINT32_MOD :
    outputDescriptor UINT32_MOD = ⟨false, ⟨1, 0, 0⟩, []⟩ := by
  unfold outputDescriptor
  rw [Nat.mod_self]
  rfl

theorem exactMemory_size (st : Unit) (n : Nat) :
    ((exactMemory.allocateSharedMemory st n).1).size = n :=
  List.length_replicate _ _

/-- An output operand of exactly `2^32` bytes next to one of 1 byte, built
with `exactMemory`: the request is returned and the descriptor of the large
operand has length 0. -/
theorem createRequests_output_length_wraps (buffer : List Nat)
    (hlen : buffer.length = UINT32_MOD) :
    ∃ r, createRequests exactMemory ()
        [{ inputs := [⟨0, [9]⟩], outputs := [⟨0, buffer⟩, ⟨1, [0]⟩] }] = some [r] ∧
      r.outputs[0]? = some ⟨false, ⟨1, 0, 0⟩, []⟩ := by
  generalize he : ({ inputs := [⟨0, [9]⟩], outputs := [⟨0, buffer⟩, ⟨1, [0]⟩] }
    : MixedTypedExample) = e
  have hins : e.inputs = [⟨0, [9]⟩] := by rw [← he]
  have houts : e.outputs = [⟨0, buffer⟩, ⟨1, [0]⟩] := by rw [← he]
  have hop : (⟨0, buffer⟩ : Operand) ∈ e.outputs := by
    rw [houts]; exact List.mem_cons_self _ _
  have hnodup : (e.outputs.map (fun op => op.index)).Nodup := by
    rw [houts]
    show [0, 1].Nodup
    decide
  have hd := outputsInfo_getElem? e.outputs hnodup ⟨0, buffer⟩ hop
  simp only [hlen, outputDescriptor_UINT32_MOD, List.take_zero] at hd
  have hd0 : (outputsInfo e.outputs).1[0]? = some ⟨false, ⟨1, 0, 0⟩, []⟩ := hd
  have hii : inputsInfo e.inputs = ([⟨false, ⟨0, 0, 1⟩, []⟩], 1) := by
    rw [hins]; decide
  have hosz : (outputsInfo e.outputs).2 = 1 := by
    rw [outputsInfo_size, houts, totalBytes_cons, totalBytes_cons]
    show (buffer.length + (1 + totalBytes [])) % UINT32_MOD = 1
    rw [hlen]
    show (UINT32_MOD + 1) % UINT32_MOD = 1
    rw [Nat.add_mod_left]
    decide
  have hszIn : (allocatedInputPool exactMemory () e).size = 1 := by
    unfold allocatedInputPool; rw [exactMemory_size, hii]
  have hszOut : (allocatedOutputPool exactMemory () e).size = 1 := by
    unfold allocatedOutputPool; rw [exactMemory_size, hosz]
  have hcopy : ∃ mem, for_all e.inputs (some (allocatedInputPool exactMemory () e).data)
      (copyInput (inputsInfo e.inputs).1) = some mem := by
    apply foldl_copyInput_isSome
    intro op hop1
    rw [hins] at hop1
    have hop2 : op = ⟨0, [9]⟩ := List.mem_singleton.1 hop1
    subst hop2
    rw [hii]
    simp only [hidl_memory.size] at hszIn
    rw [hszIn]
    decide
  obtain ⟨mem, hmem⟩ := hcopy
  have hb := buildRequest_pushed_of exactMemory () e ⟨true⟩ mem
    (by rw [hszIn]; decide) (by rw [hszOut]; decide) rfl rfl hmem
  refine ⟨{ inputs := (inputsInfo e.inputs).1, outputs := (outputsInfo e.outputs).1,
             pools := [⟨mem⟩, allocatedOutputPool exactMemory () e] }, ?_, hd0⟩
  unfold createRequests createRequestsLoop
  rcases hbuild : buildRequest exactMemory () e with ⟨b, st1⟩
  rw [hbuild] at hb
  simp only at hb
  subst hb
  simp only [createRequestsLoop, List.nil_append]

/-- C12 (as stated, refuted). Built with the exact allocator: for
`sparseExample`, whose only output operand has index 1, output descriptor 0
refers to pool 0, not to the output pool; for `duplicateOutputExample`, the
output operand of 2 bytes at index 0 finds a descriptor of length 1 at its
index; for `hugeOutputExample`, the output operand of `2^32` bytes at index 0
gets a descriptor of length 0. -/
theorem output_descriptor_shape_fails :
    sparseExample.outputs = [⟨1, [0, 0]⟩] ∧
    createRequests exactMemory () [sparseExample] = some [sparseRequest] ∧
    sparseRequest.outputs[0]? = some ⟨false, ⟨0, 0, 0⟩, []⟩ ∧
    duplicateOutputExample.outputs = [⟨0, [1, 2]⟩, ⟨0, [3]⟩] ∧
    createRequests exactMemory () [duplicateOutputExample] = some [duplicateOutputRequest] ∧
    duplicateOutputRequest.outputs[0]? = some ⟨false, ⟨1, 0, 1⟩, []⟩ ∧
    hugeOutputExample.outputs = [⟨0, hugeBuffer⟩, ⟨1, [0]⟩] ∧ hugeBuffer.length = 2 ^ 32 ∧
    ∃ r, createRequests exactMemory () [hugeOutputExample] = some [r] ∧
      r.outputs[0]? = some ⟨false, ⟨1, 0, 0⟩, []⟩ :=
  ⟨rfl, by decide, rfl, rfl, by decide, rfl, rfl, hugeBuffer_length,
    createRequests_output_length_wraps hugeBuffer hugeBuffer_length⟩

theorem withOutputOffset_fields (o : Nat) (d : RequestArgument) :
    (withOutputOffset o d).hasNoValue = d.hasNoValue ∧
    (withOutputOffset o d).location.poolIndex = d.location.poolIndex ∧
    (withOutputOffset o d).location.length = d.location.length ∧
    (withOutputOffset o d).dimensions = d.dimensions :=
  ⟨rfl, rfl, rfl, rfl⟩

/-- No descriptor of a built output list is `hasNoValue`. -/
theorem outputsInfo_hasNoValue (outputs : MixedTyped) (d : RequestArgument)
    (hd : d ∈ (outputsInfo outputs).1) : d.hasNoValue = false := by
  obtain ⟨k, d0, hk, rfl⟩ := mem_outputOffsets _ _ _ hd
  have hmem : d0 ∈ (List.foldl initOutput ([], 0) outputs).1 :=
    List.mem_iff_getElem?.2 ⟨k, hk⟩
  rcases foldl_initOutput_mem outputs ([], 0) (fun _ h => by cases h) d0 hmem with h | ⟨s, h⟩
  · rw [h]; rfl
  · rw [h]; rfl

/-- The lengths before an index are the same before and after the output
offset loop. -/
theorem sumLengths_take_outputOffsets (l : List RequestArgument) (o k : Nat) :
    sumLengths ((outputOffsets o l).take k) = sumLengths (l.take k) := by
  induction l generalizing o k with
  | nil => simp [outputOffsets]
  | cons a l ih =>
    cases k with
    | zero => simp
    | succ k => simp only [outputOffsets, List.take_succ_cons, sumLengths_cons, ih]

/-- C12 (amended). Output descriptor shape: when `createRequests` returns a
request for a dataset, every descriptor of its output list has
`hasNoValue = false`; the descriptor at the index of an output operand refers
to the output pool (pool index 1), while a descriptor at an index that no
output operand carries has pool index 0, length 0 and an empty dimensions
list, and its offset is, as for every output descriptor, the sum of the lengths
of the earlier output descriptors modulo `2^32`. With distinct output operand
indices, an output operand at index `k` with byte length `s`, including
`s = 0`, gets length `s mod 2^32`, which is `s` whenever `s < 2^32`. -/
theorem createRequests_output_descriptor_shape {σ : Type} (svc : MemoryService σ) (st : σ)
    (examples : List MixedTypedExample) (requests : List Request)
    (hres : createRequests svc st examples = some requests)
    (i : Nat) (e : MixedTypedExample) (r : Request)
    (he : examples[i]? = some e) (hr : requests[i]? = some r) :
    (∀ d ∈ r.outputs, d.hasNoValue = false) ∧
    (∀ op ∈ e.outputs, ∃ d, r.outputs[op.index]? = some d ∧ d.location.poolIndex = 1) ∧
    (∀ k d, r.outputs[k]? = some d → (∀ op ∈ e.outputs, op.index ≠ k) →
      d = { hasNoValue := false,
            location := { poolIndex := 0,
                          offset := sumLengths (r.outputs.take k) % 2 ^ 32,
                          length := 0 },
            dimensions := [] }) ∧
    (∀ k d, r.outputs[k]? = some d →
      d.location.offset = sumLengths (r.outputs.take k) % 2 ^ 32) ∧
    ((e.outputs.map (fun op => op.index)).Nodup →
      ∀ op ∈ e.outputs, ∃ d, r.outputs[op.index]? = some d ∧
        d.location.length = op.bytes.length % 2 ^ 32 ∧
        (op.bytes.length < 2 ^ 32 → d.location.length = op.bytes.length)) := by
  obtain ⟨e1, st1, he1, hb⟩ := createRequests_getElem? svc st examples requests hres i r hr
  rw [he] at he1
  simp only [Option.some.injEq] at he1
  subst he1
  obtain ⟨-, hout, -, -, -⟩ := buildRequest_pushed svc st1 e r hb
  rw [hout]
  have htake : ∀ k, sumLengths ((outputsInfo e.outputs).1.take k)
      = sumLengths ((for_all e.outputs ([], 0) initOutput).1.take k) :=
    fun k => sumLengths_take_outputOffsets _ 0 k
  refine ⟨fun d hd => outputsInfo_hasNoValue e.outputs d hd, ?_, ?_, ?_, ?_⟩
  · intro op hop
    have hlt := foldl_initOutput_index_lt e.outputs ([], 0) op hop
    obtain ⟨op1, -, -, hget⟩ :=
      foldl_initOutput_getD_of_index e.outputs ([], 0) op.index ⟨op, hop, rfl⟩
    refine ⟨_, outputsInfo_getElem?_of_lt e.outputs op.index hlt, ?_⟩
    simp only [for_all]
    rw [hget]
    rfl
  · intro k d hk hgap
    have hlt : k < (for_all e.outputs ([], 0) initOutput).1.length := by
      rw [← outputsInfo_length]
      exact (List.getElem?_eq_some_iff.1 hk).1
    rw [outputsInfo_getElem?_of_lt e.outputs k hlt, foldl_initOutput_gap e.outputs k hgap] at hk
    simp only [Option.some.injEq] at hk
    subst hk
    rw [htake]
    rfl
  · intro k d hk
    have hlt : k < (for_all e.outputs ([], 0) initOutput).1.length := by
      rw [← outputsInfo_length]
      exact (List.getElem?_eq_some_iff.1 hk).1
    rw [outputsInfo_getElem?_of_lt e.outputs k hlt] at hk
    simp only [Option.some.injEq] at hk
    subst hk
    rw [htake]
    rfl
  · intro hnodup op hop
    refine ⟨_, outputsInfo_getElem? e.outputs hnodup op hop, rfl, ?_⟩
    intro hs
    exact Nat.mod_eq_of_lt hs

/-- Witness for C12 (amended): the sample dataset whose output operands have
the indices 0 and 2; output descriptor 1 is {pool 0, offset 3, length 0}. -/
theorem createRequests_output_descriptor_shape_witness :
    createRequests exactMemory () [gapOutputExample] = some [gapOutputRequest] ∧
    (gapOutputExample.outputs.map (fun op => op.index)).Nodup ∧
    (∀ op ∈ gapOutputExample.outputs, op.index ≠ 1) ∧
    gapOutputRequest.outputs[1]? = some ⟨false, ⟨0, 3, 0⟩, []⟩ ∧
    (∀ d ∈ gapOutputRequest.outputs, d.hasNoValue = false) ∧
    (∀ op ∈ gapOutputExample.outputs, ∃ d, gapOutputRequest.outputs[op.index]? = some d ∧
      d.location.poolIndex = 1) ∧
    (⟨false, ⟨0, 3, 0⟩, []⟩ : RequestArgument)
      = { hasNoValue := false,
          location := { poolIndex := 0,
                        offset := sumLengths (gapOutputRequest.outputs.take 1) % 2 ^ 32,
                        length := 0 },
          dimensions := [] } ∧
    (∀ op ∈ gapOutputExample.outputs, ∃ d, gapOutputRequest.outputs[op.index]? = some d ∧
      d.location.length = op.bytes.length % 2 ^ 32 ∧
      (op.bytes.length < 2 ^ 32 → d.location.length = op.bytes.length)) :=
  ⟨by decide, by decide, by decide, rfl,
    (createRequests_output_descriptor_shape exactMemory () [gapOutputExample] [gapOutputRequest]
      (by decide) 0 gapOutputExample gapOutputRequest rfl rfl).1,
    (createRequests_output_descriptor_shape exactMemory () [gapOutputExample] [gapOutputRequest]
      (by decide) 0 gapOutputExample gapOutputRequest rfl rfl).2.1,
    (createRequests_output_descriptor_shape exactMemory () [gapOutputExample] [gapOutputRequest]
      (by decide) 0 gapOutputExample gapOutputRequest rfl rfl).2.2.1 1 ⟨false, ⟨0, 3, 0⟩, []⟩ rfl
      (by decide),
    (createRequests_output_descriptor_shape exactMemory () [gapOutputExample] [gapOutputRequest]
      (by decide) 0 gapOutputExample gapOutputRequest rfl rfl).2.2.2.2 (by decide)⟩

/-! ### Waiting on the callback (C13) -/

/-- C13. Transport fault aborts the check: for every prepared model, `validate`
waits on the completion callback and reads its final status if and only if the
`execute` call completed with immediate status `INVALID_ARGUMENT`; when the
call did not complete, the check is recorded as failed and the callback is not
waited on. -/
theorem validate_waits_iff {σ : Type} (pm : IPreparedModel σ) (st : σ) (message : String)
    (request : Request) (mutation : Request → Request) :
    ((validate pm st message request mutation).1.waited = true ↔
      (pm.execute st (mutation request)).1.launch = some ErrorStatus.INVALID_ARGUMENT) ∧
    ((pm.execute st (mutation request)).1.launch = none →
      (validate pm st message request mutation).1.failed = true ∧
      (validate pm st message request mutation).1.waited = false) := by
  unfold validate
  simp only
  split
  · rename_i h
    simp [h]
  · rename_i s h
    split
    · rename_i hs
      simp [h, hs]
    · rename_i hs
      have hs2 : s = ErrorStatus.INVALID_ARGUMENT := by
        by_contra hne
        exact hs hne
      simp [h, hs2]

/-- Witness for C13: a model whose `execute` call never completes. -/
theorem validate_waits_iff_witness :
    (unreachableModel.execute 0 (removeInput 0 smallRequest)).1.launch = none ∧
    (validate unreachableModel 0 "removeInput: removed input 0" smallRequest
        (removeInput 0)).1.failed = true ∧
    (validate unreachableModel 0 "removeInput: removed input 0" smallRequest
        (removeInput 0)).1.waited = false :=
  ⟨rfl, (validate_waits_iff unreachableModel 0 "removeInput: removed input 0" smallRequest
    (removeInput 0)).2 rfl⟩

/-! ### Diagnostic labels (C14) -/

/-- The label of a check is the message followed by " [execute]". -/
theorem validate_label {σ : Type} (pm : IPreparedModel σ) (st : σ) (message : String)
    (request : Request) (mutation : Request → Request) :
    (validate pm st message request mutation).1.label = message ++ " [execute]" := by
  unfold validate
  simp only
  split
  · rfl
  · split <;> rfl

/-- The labels of the checks of the input loop. -/
theorem removeInputLoop_labels {σ : Type} (pm : IPreparedModel σ) (r : Request)
    (fuel input : Nat) (st : σ) :
    (removeInputLoop pm r fuel input st).1.map (fun c => c.label)
      = (List.range' input fuel).map
          (fun k => "removeInput: removed input " ++ toString k ++ " [execute]") := by
  induction fuel generalizing input st with
  | zero => rfl
  | succ fuel ih =>
    simp only [removeInputLoop, List.range'_succ, List.map_cons, validate_label, ih]

/-- The labels of the checks of the output loop. -/
theorem removeOutputLoop_labels {σ : Type} (pm : IPreparedModel σ) (r : Request)
    (fuel output : Nat) (st : σ) :
    (removeOutputLoop pm r fuel output st).1.map (fun c => c.label)
      = (List.range' output fuel).map
          (fun k => "removeOutput: removed Output " ++ toString k ++ " [execute]") := by
  induction fuel generalizing output st with
  | zero => rfl
  | succ fuel ih =>
    simp only [removeOutputLoop, List.range'_succ, List.map_cons, validate_label, ih]

/-- The labels of the checks run for one request, in order. -/
theorem validateRequests_labels {σ : Type} (pm : IPreparedModel σ) (st : σ) (r : Request) :
    (validateRequests pm st [r]).1.map (fun c => c.label)
      = (List.range r.inputs.length).map
          (fun k => "removeInput: removed input " ++ toString k ++ " [execute]")
        ++ (List.range r.outputs.length).map
          (fun k => "removeOutput: removed Output " ++ toString k ++ " [execute]") := by
  simp only [validateRequests, List.map_append, List.append_nil, removeInputTest,
    removeOutputTest, removeInputLoop_labels, removeOutputLoop_labels, List.range_eq_range',
    List.map_nil]

/-- A text placed between two strings is contained in the whole. -/
theorem containsText_middle (before text after : String) :
    containsText (before ++ text ++ after) text := by
  unfold containsText
  exact ⟨before.data, after.data, by simp only [String.data_append]⟩

theorem input_label_contains (k : Nat) :
    containsText ("removeInput: removed input " ++ toString k ++ " [execute]")
      ("removed input " ++ toString k) := by
  have h : "removeInput: removed input " ++ toString k ++ " [execute]"
      = "removeInput: " ++ ("removed input " ++ toString k) ++ " [execute]" := by
    rw [← String.append_assoc]
    rfl
  rw [h]
  exact containsText_middle _ _ _

/-- C14. Diagnostic labels, evaluated on `smallRequest` (one input, one
output): the check of the variant with input 0 removed is labelled
"removeInput: removed input 0 [execute]", which contains the text
"removed input 0"; the check of the variant with output 0 removed is labelled
"removeOutput: removed Output 0 [execute]", which does not contain the text
"removed output 0": the literal of `removeOutputTest` (line 82) spells
"Output" with a capital, unlike the literal of `removeInputTest` (line 72). -/
theorem output_label_is_capitalised :
    (validateRequests rejectingModel 0 [smallRequest]).1.map (fun c => (c.label, c.submitted))
      = [("removeInput: removed input 0 [execute]", removeInput 0 smallRequest),
         ("removeOutput: removed Output 0 [execute]", removeOutput 0 smallRequest)] ∧
    containsText "removeInput: removed input 0 [execute]" "removed input 0" ∧
    ¬ containsText "removeOutput: removed Output 0 [execute]" "removed output 0" := by
  decide

/-! ### All-or-nothing result (C15) -/

/-- An iteration executes `return {}` exactly when a pool has size 0, the
input pool cannot be mapped, or its mapping has no pointer. -/
theorem buildRequest_returnedEmpty_iff {σ : Type} (svc : MemoryService σ) (st : σ)
    (e : MixedTypedExample) :
    (buildRequest svc st e).1 = BuildResult.returnedEmpty ↔
      ((allocatedInputPool svc st e).size = 0 ∨ (allocatedOutputPool svc st e).size = 0 ∨
        mappedInputPool svc st e = none ∨ mappedInputPool svc st e = some ⟨false⟩) := by
  unfold mappedInputPool allocatedOutputPool allocatedInputPool buildRequest
  simp only
  split
  · rename_i h
    rcases h with h | h
    · simp [h]
    · simp [h]
  · rename_i h
    have h1 : ¬ ((svc.allocateSharedMemory st (inputsInfo e.inputs).2).1).size = 0 :=
      fun h0 => h (Or.inl h0)
    have h2 : ¬ ((svc.allocateSharedMemory
        (svc.allocateSharedMemory st (inputsInfo e.inputs).2).2
        (outputsInfo e.outputs).2).1).size = 0 := fun h0 => h (Or.inr h0)
    split
    · rename_i st3 hm
      simp [h1, h2, hm]
    · rename_i im st3 hm
      obtain ⟨p⟩ := im
      cases p
      · simp [h1, h2, hm]
      · simp only [h1, h2, hm, false_or, Bool.true_eq_false, if_false]
        split <;> simp

/-- When no dataset fails, there is one pushed request per dataset. -/
theorem successfulRequests_length {σ : Type} (svc : MemoryService σ)
    (examples : List MixedTypedExample) (st : σ)
    (h : firstFailure (buildEach svc st examples) = none) :
    (successfulRequests (buildEach svc st examples)).length = examples.length := by
  induction examples generalizing st with
  | nil => rfl
  | cons e rest ih =>
    simp only [buildEach] at h ⊢
    cases hb : (buildRequest svc st e).1 with
    | returnedEmpty => rw [hb] at h; simp [firstFailure] at h
    | outOfBounds => rw [hb] at h; simp [firstFailure] at h
    | pushed r =>
      rw [hb] at h
      simp only [firstFailure] at h
      simp only [successfulRequests, List.length_cons, ih _ h]

/-- C15. All-or-nothing result: whenever `createRequests` returns a list, it
is the empty list or it has exactly one request per dataset, the request at
each position being the one pushed for the dataset at that position. It
returns the empty list as soon as a dataset makes the loop execute
`return {}`, whatever was built before; that happens exactly when the input
pool or the output pool has size 0 or the input pool cannot be mapped. The
call does return a list when operand indices are distinct, input bytes total
less than `2^32` and every allocation fails or delivers at least the requested
size. -/
theorem createRequests_all_or_nothing {σ : Type} (svc : MemoryService σ) (st : σ)
    (examples : List MixedTypedExample) :
    (∀ result, createRequests svc st examples = some result →
      result = [] ∨
      (result.length = examples.length ∧
        ∀ (i : Nat) (e : MixedTypedExample) (r : Request),
          examples[i]? = some e → result[i]? = some r →
          ∃ st1, (buildRequest svc st1 e).1 = BuildResult.pushed r)) ∧
    (firstFailure (buildEach svc st examples) = some BuildResult.returnedEmpty →
      createRequests svc st examples = some []) ∧
    (∀ (s : σ) (e : MixedTypedExample),
      (buildRequest svc s e).1 = BuildResult.returnedEmpty ↔
        ((allocatedInputPool svc s e).size = 0 ∨ (allocatedOutputPool svc s e).size = 0 ∨
          mappedInputPool svc s e = none ∨ mappedInputPool svc s e = some ⟨false⟩)) ∧
    ((∀ s n, ((svc.allocateSharedMemory s n).1).size = 0 ∨
        n ≤ ((svc.allocateSharedMemory s n).1).size) →
      (∀ e ∈ examples, (e.inputs.map (fun op => op.index)).Nodup ∧
        totalBytes e.inputs < 2 ^ 32) →
      ∃ result, createRequests svc st examples = some result) := by
  refine ⟨?_, ?_, buildRequest_returnedEmpty_iff svc, ?_⟩
  · intro result hres
    have heq := createRequestsLoop_eq svc examples st []
    unfold createRequests at hres
    rw [hres] at heq
    cases hf : firstFailure (buildEach svc st examples) with
    | none =>
      rw [hf] at heq
      simp only [List.nil_append, Option.some.injEq] at heq
      right
      refine ⟨by rw [heq]; exact successfulRequests_length svc examples st hf, ?_⟩
      intro i e r he hr
      obtain ⟨e1, st1, he1, hb⟩ := createRequests_getElem? svc st examples result hres i r hr
      rw [he] at he1
      simp only [Option.some.injEq] at he1
      subst he1
      exact ⟨st1, hb⟩
    | some b =>
      rw [hf] at heq
      cases b with
      | returnedEmpty => simp only [Option.some.injEq] at heq; exact Or.inl heq
      | outOfBounds => cases heq
      | pushed r => simp only [Option.some.injEq] at heq; exact Or.inl heq
  · intro hf
    unfold createRequests
    rw [createRequestsLoop_eq, hf]
  · intro halloc hex
    exact createRequestsLoop_defined svc examples st [] halloc hex

/-- Witness for C15: two datasets that build, and a failing dataset after a
dataset that builds. -/
theorem createRequests_all_or_nothing_witness :
    createRequests exactMemory () [smallExample, emptyInputExample]
      = some [smallRequest, emptyInputRequest] ∧
    ([smallRequest, emptyInputRequest] = [] ∨
      ([smallRequest, emptyInputRequest].length = [smallExample, emptyInputExample].length ∧
        ∀ (i : Nat) (e : MixedTypedExample) (r : Request),
          [smallExample, emptyInputExample][i]? = some e →
          [smallRequest, emptyInputRequest][i]? = some r →
          ∃ st1, (buildRequest exactMemory st1 e).1 = BuildResult.pushed r)) ∧
    firstFailure (buildEach exactMemory () [smallExample, noInputExample])
      = some BuildResult.returnedEmpty ∧
    createRequests exactMemory () [smallExample, noInputExample] = some [] ∧
    (∃ result, createRequests exactMemory () [smallExample, emptyInputExample] = some result) :=
  ⟨by decide,
    (createRequests_all_or_nothing exactMemory () [smallExample, emptyInputExample]).1
      [smallRequest, emptyInputRequest] (by decide),
    by decide,
    (createRequests_all_or_nothing exactMemory () [smallExample, noInputExample]).2.1 (by decide),
    (createRequests_all_or_nothing exactMemory () [smallExample, emptyInputExample]).2.2.2
      (fun _ n => Or.inr (le_of_eq (List.length_replicate n 0).symm)) (by decide)⟩

/-! ### No overlap (C16) -/

/-- Prefix sums of lengths: a descriptor ends where a later one may start. -/
theorem sumLengths_take_step_getElem? (l : List RequestArgument) (i j : Nat)
    (d : RequestArgument) (hi : l[i]? = some d) (hij : i < j) :
    sumLengths (l.take i) + d.location.length ≤ sumLengths (l.take j) := by
  have hlt : i < l.length := (List.getElem?_eq_some_iff.1 hi).1
  have h := sumLengths_take_step l i j hlt hij
  rw [List.getD_eq_getElem?_getD, hi] at h
  exact h

/-- C16. No overlap: in every request returned by `createRequests` for
datasets whose input bytes and output bytes each total less than `2^32`, two
input descriptors at indices `i < j` that are not `hasNoValue` satisfy
`offset i + length i ≤ offset j`, and so do any two output descriptors at
indices `i < j`: the byte ranges `[offset, offset + length)` come in increasing
index order and no byte position lies in both. -/
theorem createRequests_no_overlap {σ : Type} (svc : MemoryService σ) (st : σ)
    (examples : List MixedTypedExample) (requests : List Request)
    (hsize : ∀ e ∈ examples, totalBytes e.inputs < 2 ^ 32 ∧ totalBytes e.outputs < 2 ^ 32)
    (hres : createRequests svc st examples = some requests)
    (r : Request) (hr : r ∈ requests) :
    (∀ (i j : Nat) (di dj : RequestArgument), i < j →
      r.inputs[i]? = some di → r.inputs[j]? = some dj →
      di.hasNoValue = false → dj.hasNoValue = false →
      di.location.offset + di.location.length ≤ dj.location.offset ∧
      ∀ p, ¬ ((di.location.offset ≤ p ∧ p < di.location.offset + di.location.length) ∧
        (dj.location.offset ≤ p ∧ p < dj.location.offset + dj.location.length))) ∧
    (∀ (i j : Nat) (di dj : RequestArgument), i < j →
      r.outputs[i]? = some di → r.outputs[j]? = some dj →
      di.location.offset + di.location.length ≤ dj.location.offset ∧
      ∀ p, ¬ ((di.location.offset ≤ p ∧ p < di.location.offset + di.location.length) ∧
        (dj.location.offset ≤ p ∧ p < dj.location.offset + dj.location.length))) := by
  obtain ⟨e, he, st1, hb⟩ := mem_createRequests svc st examples requests r hres hr
  obtain ⟨hin, hout, -, -, -⟩ := buildRequest_pushed svc st1 e r hb
  obtain ⟨hsi, hso⟩ := hsize e he
  have hsumIn := inputsInfo_sumLengths e.inputs
  have hsumOut := outputsInfo_sumLengths e.outputs
  constructor
  · intro i j di dj hij hdi hdj hvi hvj
    rw [hin] at hdi hdj
    simp only [inputsInfo, inputOffsets_getElem?, Nat.zero_add] at hdi hdj
    cases hpi : (for_all e.inputs ([], 0) initInput).1[i]? with
    | none => rw [hpi] at hdi; cases hdi
    | some a =>
      cases hpj : (for_all e.inputs ([], 0) initInput).1[j]? with
      | none => rw [hpj] at hdj; cases hdj
      | some b =>
        rw [hpi] at hdi
        rw [hpj] at hdj
        simp only [Option.map_some', Option.some.injEq] at hdi hdj
        subst hdi
        subst hdj
        rw [withInputOffset_hasNoValue] at hvi hvj
        have hstep := sumLengths_take_step_getElem? _ i j a hpi hij
        have hti := sumLengths_take_le (for_all e.inputs ([], 0) initInput).1 i
        have htj := sumLengths_take_le (for_all e.inputs ([], 0) initInput).1 j
        have hoi : (withInputOffset (sumLengths (List.take i
            (for_all e.inputs ([], 0) initInput).1)) a).location.offset
            = sumLengths (List.take i (for_all e.inputs ([], 0) initInput).1) := by
          simp only [withInputOffset, hvi, Bool.false_eq_true, if_false]
          exact Nat.mod_eq_of_lt (by simp only [UINT32_MOD]; omega)
        have hoj : (withInputOffset (sumLengths (List.take j
            (for_all e.inputs ([], 0) initInput).1)) b).location.offset
            = sumLengths (List.take j (for_all e.inputs ([], 0) initInput).1) := by
          simp only [withInputOffset, hvj, Bool.false_eq_true, if_false]
          exact Nat.mod_eq_of_lt (by simp only [UINT32_MOD]; omega)
        rw [hoi, hoj, withInputOffset_length]
        refine ⟨hstep, ?_⟩
        intro p hp
        omega
  · intro i j di dj hij hdi hdj
    rw [hout] at hdi hdj
    simp only [outputsInfo, outputOffsets_getElem?, Nat.zero_add] at hdi hdj
    cases hpi : (for_all e.outputs ([], 0) initOutput).1[i]? with
    | none => rw [hpi] at hdi; cases hdi
    | some a =>
      cases hpj : (for_all e.outputs ([], 0) initOutput).1[j]? with
      | none => rw [hpj] at hdj; cases hdj
      | some b =>
        rw [hpi] at hdi
        rw [hpj] at hdj
        simp only [Option.map_some', Option.some.injEq] at hdi hdj
        subst hdi
        subst hdj
        have hstep := sumLengths_take_step_getElem? _ i j a hpi hij
        have hti := sumLengths_take_le (for_all e.outputs ([], 0) initOutput).1 i
        have htj := sumLengths_take_le (for_all e.outputs ([], 0) initOutput).1 j
        have hoi : (withOutputOffset (sumLengths (List.take i
            (for_all e.outputs ([], 0) initOutput).1)) a).location.offset
            = sumLengths (List.take i (for_all e.outputs ([], 0) initOutput).1) :=
          Nat.mod_eq_of_lt (by simp only [UINT32_MOD]; omega)
        have hoj : (withOutputOffset (sumLengths (List.take j
            (for_all e.outputs ([], 0) initOutput).1)) b).location.offset
            = sumLengths (List.take j (for_all e.outputs ([], 0) initOutput).1) :=
          Nat.mod_eq_of_lt (by simp only [UINT32_MOD]; omega)
        rw [hoi, hoj, (withOutputOffset_fields _ a).2.2.1]
        refine ⟨hstep, ?_⟩
        intro p hp
        omega

/-- Witness for C16: input descriptors 0 and 2 of the sample request built
with the exact allocator. -/
theorem createRequests_no_overlap_witness :
    (∀ e ∈ [sparseExample], totalBytes e.inputs < 2 ^ 32 ∧ totalBytes e.outputs < 2 ^ 32) ∧
    createRequests exactMemory () [sparseExample] = some [sparseRequest] ∧
    sparseRequest.inputs[0]? = some ⟨false, ⟨0, 0, 3⟩, []⟩ ∧
    sparseRequest.inputs[2]? = some ⟨false, ⟨0, 3, 2⟩, []⟩ ∧
    (0 + 3 ≤ 3 ∧ ∀ p, ¬ ((0 ≤ p ∧ p < 0 + 3) ∧ (3 ≤ p ∧ p < 3 + 2))) :=
  ⟨by decide, by decide, rfl, rfl,
    (createRequests_no_overlap exactMemory () [sparseExample] [sparseRequest] (by decide)
      (by decide) sparseRequest (by decide)).1 0 2 ⟨false, ⟨0, 0, 3⟩, []⟩ ⟨false, ⟨0, 3, 2⟩, []⟩
      (by decide) rfl rfl rfl rfl⟩

end ValidateRequest
